/-
Verification of the queue-coordination logic of the 10_BANDS repository
(`QueueManagerGUI_v2.py`).

The Python code is shallowly embedded: JSON values become the inductive
type `Json` (numbers modeled as integers / rationals), Python dicts become
insertion-ordered association lists with Python's replace-in-place update
semantics, file contents become strings / character lists, and the file
system becomes an association list from paths to contents.  Each embedded
definition mirrors one Python function or code block; line numbers in the
doc comments refer to `QueueManagerGUI_v2.py`.
-/
import Mathlib

/-- A JSON value as produced by Python's `json.loads`.  Python keeps `int`
and `float` apart, so the embedding does too; floats are idealized as
rationals (the claims under study only exercise exact values). -/
inductive Json where
  | null
  | bool (b : Bool)
  | int (n : Int)
  | float (q : ℚ)
  | str (s : String)
  | arr (items : List Json)
  | obj (fields : List (String × Json))
deriving Repr

/-- The field list of a JSON object (a Python dict with string keys). -/
abbrev JsonFields := List (String × Json)

mutual
/-- Structural equality of JSON values (Python `==` on decoded values,
restricted to same-type comparisons, which is all the code exercises). -/
def Json.beq : Json → Json → Bool
  | .null, .null => true
  | .bool a, .bool b => a == b
  | .int a, .int b => a == b
  | .float a, .float b => a == b
  | .str a, .str b => a == b
  | .arr xs, .arr ys => Json.beqList xs ys
  | .obj xs, .obj ys => Json.beqFields xs ys
  | _, _ => false

def Json.beqList : List Json → List Json → Bool
  | [], [] => true
  | x :: xs, y :: ys => Json.beq x y && Json.beqList xs ys
  | _, _ => false

def Json.beqFields : JsonFields → JsonFields → Bool
  | [], [] => true
  | (k, v) :: xs, (k', v') :: ys => k == k' && Json.beq v v' && Json.beqFields xs ys
  | _, _ => false
end

/-- Lookup in an insertion-ordered association list (Python `d[k]` /
`d.get(k)`), first matching key wins (keys are unique in a Python dict). -/
def lookupA {α β : Type} [DecidableEq α] : List (α × β) → α → Option β
  | [], _ => none
  | (k, v) :: rest, key => if k = key then some v else lookupA rest key

/-- Python dict assignment `d[k] = v`: replaces the value at an existing
key in place (keeping its position) or appends a new binding at the end. -/
def updateA {α β : Type} [DecidableEq α] : List (α × β) → α → β → List (α × β)
  | [], key, v => [(key, v)]
  | (k, w) :: rest, key, v =>
      if k = key then (k, v) :: rest else (k, w) :: updateA rest key v

/-- Python `del d[k]` / file unlink on an association list: removes the
first binding with the given key (keys are unique in practice). -/
def removeA {α β : Type} [DecidableEq α] : List (α × β) → α → List (α × β)
  | [], _ => []
  | (k, w) :: rest, key => if k = key then rest else (k, w) :: removeA rest key

/-- `fields.get(key, default)` on a JSON object. -/
def getFieldD (fields : JsonFields) (key : String) (dflt : Json) : Json :=
  (lookupA fields key).getD dflt

/-- Python `str()` of a JSON-decoded value.  (The float case is an
idealized rational rendering; no claim exercises it.) -/
def pyStr : Json → String
  | .null => "None"
  | .bool true => "True"
  | .bool false => "False"
  | .int n => toString n
  | .float q => toString q
  | .str s => s
  | .arr _ => "<list>"
  | .obj _ => "<dict>"

/-- Python truthiness `bool(x)` of a JSON-decoded value. -/
def pyTruthy : Json → Bool
  | .null => false
  | .bool b => b
  | .int n => n != 0
  | .float q => q != 0
  | .str s => s != ""
  | .arr xs => !xs.isEmpty
  | .obj fs => !fs.isEmpty

/-- Python `int(x)` on a string: optional surrounding whitespace, optional
sign, then at least one digit. -/
def pyIntOfStr (s : String) : Option Int :=
  let cs := (s.toList.dropWhile Char.isWhitespace).reverse.dropWhile Char.isWhitespace |>.reverse
  let core : List Char → Option Int := fun ds =>
    if ds.isEmpty || !ds.all Char.isDigit then none
    else some (ds.foldl (fun acc c => acc * 10 + (c.toNat - '0'.toNat)) (0 : Int))
  match cs with
  | '-' :: rest => (core rest).map (fun n => -n)
  | '+' :: rest => core rest
  | _ => core cs

/-- Python `int(x)` on a JSON-decoded value: ints pass through, floats
truncate toward zero, bools become 0/1, numeric strings parse, everything
else raises `TypeError` (modeled as `none`). -/
def pyInt : Json → Option Int
  | .int n => some n
  | .float q => some (q.num.tdiv q.den)
  | .bool b => some (if b then 1 else 0)
  | .str s => pyIntOfStr s
  | _ => none

/-- `isinstance(x, numbers.Real)` composed with `float(x)`: ints, floats
and bools are real numbers in Python; everything else is not. -/
def toRealQ : Json → Option ℚ
  | .int n => some n
  | .float q => some q
  | .bool b => some (if b then 1 else 0)
  | _ => none

/-- Python `str.splitlines` restricted to `\n` separators: like splitting
on newlines but without a trailing empty fragment. -/
def pySplitlinesL : List Char → List (List Char) := fun cs =>
  let parts := splitNl cs
  match cs.getLast? with
  | some '\n' => parts.dropLast
  | some _ => parts
  | none => []
where
  splitNl : List Char → List (List Char)
  | [] => [[]]
  | c :: rest =>
    if c = '\n' then [] :: splitNl rest
    else match splitNl rest with
      | [] => [[c]]
      | p :: ps => (c :: p) :: ps

/-- Python `str.rstrip()` (trailing whitespace removed). -/
def pyRstripL (cs : List Char) : List Char :=
  (cs.reverse.dropWhile Char.isWhitespace).reverse

/-- Python `str.strip()` (leading and trailing whitespace removed). -/
def pyStripL (cs : List Char) : List Char :=
  (cs.dropWhile Char.isWhitespace).reverse.dropWhile Char.isWhitespace |>.reverse

/-- A line is blank when `ln.strip()` is falsy, i.e. all whitespace. -/
def isBlankL (cs : List Char) : Bool := cs.all Char.isWhitespace

/-- String versions of the helpers above. -/
def pySplitlines (s : String) : List String :=
  (pySplitlinesL s.toList).map List.asString

def pyStrip (s : String) : String := (pyStripL s.toList).asString

def isBlank (s : String) : Bool := isBlankL s.toList

/-- Hexadecimal digit character for `\uXXXX` escapes. -/
def hexDigit (n : Nat) : Char :=
  if n < 10 then Char.ofNat ('0'.toNat + n) else Char.ofNat ('a'.toNat + n - 10)

/-- How Python's `json.dumps` (with `ensure_ascii=False`) escapes one
character inside a string literal. -/
def escapeChar (c : Char) : List Char :=
  if c = '"' then ['\\', '"']
  else if c = '\\' then ['\\', '\\']
  else if c = '\n' then ['\\', 'n']
  else if c = '\t' then ['\\', 't']
  else if c = '\r' then ['\\', 'r']
  else if c.toNat = 8 then ['\\', 'b']
  else if c.toNat = 12 then ['\\', 'f']
  else if c.toNat < 32 then
    ['\\', 'u', '0', '0', hexDigit (c.toNat / 16), hexDigit (c.toNat % 16)]
  else [c]

/-- A JSON string literal as `json.dumps` renders it. -/
def escapeStr (s : String) : String :=
  "\"" ++ ((s.toList.map escapeChar).flatten).asString ++ "\""

mutual
/-- Python `json.dumps(x, ensure_ascii=False)` with its default
separators `", "` and `": "`. -/
def dumpJson : Json → String
  | .null => "null"
  | .bool true => "true"
  | .bool false => "false"
  | .int n => toString n
  | .float q => toString q
  | .str s => escapeStr s
  | .arr xs => "[" ++ dumpItems xs ++ "]"
  | .obj fs => "\x7b" ++ dumpMembers fs ++ "\x7d"

def dumpItems : List Json → String
  | [] => ""
  | [x] => dumpJson x
  | x :: y :: rest => dumpJson x ++ ", " ++ dumpItems (y :: rest)

def dumpMembers : JsonFields → String
  | [] => ""
  | [(k, v)] => escapeStr k ++ ": " ++ dumpJson v
  | (k, v) :: m :: rest => escapeStr k ++ ": " ++ dumpJson v ++ ", " ++ dumpMembers (m :: rest)
end

/-- JSON whitespace skipping. -/
def skipWs : List Char → List Char
  | c :: rest =>
    if c = ' ' || c = '\t' || c = '\n' || c = '\r' then skipWs rest else c :: rest
  | [] => []

/-- Value of a digit string. -/
def digitsVal (ds : List Char) : Nat :=
  ds.foldl (fun a c => a * 10 + (c.toNat - '0'.toNat)) 0

/-- Strict JSON number grammar (`-?(0|[1-9]\d*)(\.\d+)?([eE][+-]?\d+)?`)
as accepted by Python's `json.loads`; integers decode to `int`, anything
with a fraction or exponent to `float`. -/
def parseNumber (cs : List Char) : Option (Json × List Char) :=
  let signed := match cs with
    | '-' :: rest => (true, rest)
    | _ => (false, cs)
  let neg := signed.1
  let cs1 := signed.2
  match cs1 with
  | [] => none
  | c :: _ =>
    if !c.isDigit then none
    else
      let ds := cs1.takeWhile Char.isDigit
      let cs2 := cs1.dropWhile Char.isDigit
      if 1 < ds.length && c = '0' then none
      else
        let intVal : Nat := digitsVal ds
        let fracRes : Option (ℚ × Bool × List Char) :=
          match cs2 with
          | '.' :: cs3 =>
            let fd := cs3.takeWhile Char.isDigit
            if fd.isEmpty then none
            else some ((digitsVal fd : ℚ) / ((10 : ℚ) ^ fd.length), true, cs3.dropWhile Char.isDigit)
          | _ => some (0, false, cs2)
        match fracRes with
        | none => none
        | some (frac, isF1, cs4) =>
          let expRes : Option (Int × Bool × List Char) :=
            match cs4 with
            | 'e' :: cs5 | 'E' :: cs5 =>
              let sgn := match cs5 with
                | '+' :: r => ((1 : Int), r)
                | '-' :: r => ((-1 : Int), r)
                | _ => ((1 : Int), cs5)
              let ed := sgn.2.takeWhile Char.isDigit
              if ed.isEmpty then none
              else some (sgn.1 * (digitsVal ed : Int), true, sgn.2.dropWhile Char.isDigit)
            | _ => some (0, false, cs4)
          match expRes with
          | none => none
          | some (ex, isF2, cs7) =>
            if isF1 || isF2 then
              let mag : ℚ := ((intVal : ℚ) + frac) * (10 : ℚ) ^ ex
              some (.float (if neg then -mag else mag), cs7)
            else
              some (.int (if neg then -(intVal : Int) else (intVal : Int)), cs7)

/-- Hex digit value. -/
def hexVal (c : Char) : Option Nat :=
  if c.isDigit then some (c.toNat - '0'.toNat)
  else if 'a'.toNat ≤ c.toNat && c.toNat ≤ 'f'.toNat then some (c.toNat - 'a'.toNat + 10)
  else if 'A'.toNat ≤ c.toNat && c.toNat ≤ 'F'.toNat then some (c.toNat - 'A'.toNat + 10)
  else none

/-- Body of a JSON string literal (after the opening quote), with the
standard escape sequences; bare control characters are invalid. -/
def parseStringBody : Nat → List Char → List Char → Option (String × List Char)
  | 0, _, _ => none
  | _, [], _ => none
  | fuel + 1, c :: rest, acc =>
    if c = '"' then some (acc.reverse.asString, rest)
    else if c = '\\' then
      match rest with
      | [] => none
      | e :: rest2 =>
        if e = '"' then parseStringBody fuel rest2 ('"' :: acc)
        else if e = '\\' then parseStringBody fuel rest2 ('\\' :: acc)
        else if e = '/' then parseStringBody fuel rest2 ('/' :: acc)
        else if e = 'b' then parseStringBody fuel rest2 (Char.ofNat 8 :: acc)
        else if e = 'f' then parseStringBody fuel rest2 (Char.ofNat 12 :: acc)
        else if e = 'n' then parseStringBody fuel rest2 ('\n' :: acc)
        else if e = 'r' then parseStringBody fuel rest2 ('\r' :: acc)
        else if e = 't' then parseStringBody fuel rest2 ('\t' :: acc)
        else if e = 'u' then
          match rest2 with
          | h1 :: h2 :: h3 :: h4 :: rest3 =>
            match hexVal h1, hexVal h2, hexVal h3, hexVal h4 with
            | some a, some b, some c3, some d =>
              parseStringBody fuel rest3 (Char.ofNat (((a * 16 + b) * 16 + c3) * 16 + d) :: acc)
            | _, _, _, _ => none
          | _ => none
        else none
    else if c.toNat < 32 then none
    else parseStringBody fuel rest (c :: acc)

/-- Python dict construction from a key/value list: later duplicate keys
overwrite the value at the first occurrence's position. -/
def dedupFields (fields : JsonFields) : JsonFields :=
  fields.foldl (fun acc kv => updateA acc kv.1 kv.2) []

mutual
/-- One JSON value, fuel-bounded recursive-descent (mirrors the grammar
Python's `json.loads` accepts). -/
def parseVal : Nat → List Char → Option (Json × List Char)
  | 0, _ => none
  | fuel + 1, cs =>
    match skipWs cs with
    | [] => none
    | '"' :: rest => (parseStringBody (rest.length + 1) rest []).map (fun p => (.str p.1, p.2))
    | '[' :: rest =>
      (match skipWs rest with
       | ']' :: rest2 => some (.arr [], rest2)
       | cs2 => (parseItems fuel cs2).map (fun p => (.arr p.1, p.2)))
    | '\x7b' :: rest =>
      (match skipWs rest with
       | '\x7d' :: rest2 => some (.obj [], rest2)
       | cs2 => (parseMembers fuel cs2).map (fun p => (.obj (dedupFields p.1), p.2)))
    | 't' :: 'r' :: 'u' :: 'e' :: rest => some (.bool true, rest)
    | 'f' :: 'a' :: 'l' :: 's' :: 'e' :: rest => some (.bool false, rest)
    | 'n' :: 'u' :: 'l' :: 'l' :: rest => some (.null, rest)
    | cs2 => parseNumber cs2

/-- Comma-separated array items up to the closing bracket. -/
def parseItems : Nat → List Char → Option (List Json × List Char)
  | 0, _ => none
  | fuel + 1, cs =>
    match parseVal fuel cs with
    | none => none
    | some (v, rest) =>
      match skipWs rest with
      | ',' :: rest2 => (parseItems fuel rest2).map (fun p => (v :: p.1, p.2))
      | ']' :: rest2 => some ([v], rest2)
      | _ => none

/-- Comma-separated object members up to the closing brace. -/
def parseMembers : Nat → List Char → Option (JsonFields × List Char)
  | 0, _ => none
  | fuel + 1, cs =>
    match skipWs cs with
    | '"' :: rest =>
      match parseStringBody (rest.length + 1) rest [] with
      | none => none
      | some (key, rest2) =>
        match skipWs rest2 with
        | ':' :: rest3 =>
          match parseVal fuel rest3 with
          | none => none
          | some (v, rest4) =>
            match skipWs rest4 with
            | ',' :: rest5 => (parseMembers fuel rest5).map (fun p => ((key, v) :: p.1, p.2))
            | '\x7d' :: rest5 => some ([(key, v)], rest5)
            | _ => none
        | _ => none
    | _ => none
end

/-- Python `json.loads`: parse one JSON value and require only trailing
whitespace after it.  `none` models a raised `JSONDecodeError`. -/
def jsonLoads (s : String) : Option Json :=
  match parseVal (2 * s.length + 8) s.toList with
  | some (v, rest) => if (skipWs rest).isEmpty then some v else none
  | none => none

/-- A file-system operation performed by the GUI, at the granularity of
the Python calls (`mkdir(parents=True, exist_ok=True)`, `write_text`,
`rename`). -/
inductive FsOp where
  | mkdirP (path : String)
  | writeFile (path : String) (content : String)
  | rename (src dst : String)
deriving Repr, DecidableEq

def FsOp.isRename : FsOp → Bool
  | .rename _ _ => true
  | _ => false

/-- `MainWindow.enqueue_task_dict` (lines 938-945) as the sequence of
file-system operations it performs: ensure `inbox` exists, then write the
serialized envelope.  `task.get("id") or now` keeps a truthy existing id,
otherwise substitutes the second-resolution timestamp string `now`. -/
def enqueue_task_dict (tasksDir : String) (task : JsonFields) (now : String) : List FsOp :=
  let inbox := tasksDir ++ "/inbox"
  let idVal := getFieldD task "id" .null
  let tid : Json := if pyTruthy idVal then idVal else .str now
  let task' := updateA task "id" tid
  let path := inbox ++ "/task_" ++ pyStr tid ++ ".jsonl"
  [.mkdirP inbox, .writeFile path (dumpJson (.obj task') ++ "\n")]

/-- The identity of the physical file a `LogTailer` is watching: device
plus inode, falling back to the size when `st_ino` is unavailable
(`getattr(st, "st_ino", st.st_size)`, line 66). -/
structure TFile where
  dev : Nat
  ino : Option Nat
  content : List Char
deriving Repr, DecidableEq

/-- The tailer's persistent state: `self._pos` and `self._inode`
(lines 52-53); both start at zero / `None`. -/
structure TailerState where
  pos : Nat
  ident : Option (Nat × Nat)
deriving Repr, DecidableEq

def identOf (f : TFile) : Nat × Nat := (f.dev, f.ino.getD f.content.length)

/-- Line 76: `[ln.rstrip() for ln in chunk.splitlines() if ln.strip()]`. -/
def processChunk (chunk : List Char) : List (List Char) :=
  ((pySplitlinesL chunk).filter (fun ln => !isBlankL ln)).map pyRstripL

/-- `LogTailer._poll` (lines 61-80).  `none` for the file means the path
does not exist (step: do nothing).  The returned list is the batch passed
to `new_lines.emit`; an empty batch means no signal is emitted, which is
observationally the same. -/
def LogTailer.poll (st : TailerState) (file : Option TFile) : TailerState × List (List Char) :=
  match file with
  | none => (st, [])
  | some f =>
    let size := f.content.length
    let inode := identOf f
    let st1 : TailerState :=
      if st.ident ≠ some inode ∨ size < st.pos then ⟨0, some inode⟩ else st
    let chunk := f.content.drop st1.pos
    let st2 : TailerState := ⟨size, st1.ident⟩
    if chunk.isEmpty then (st2, []) else (st2, processChunk chunk)

/-- C1 counterexample: the claim says the envelope is written to a
temporary name and renamed into place.  At a concrete task,
`enqueue_task_dict` performs no rename at all: it writes the serialized
envelope directly to its final path `inbox/task_<id>.jsonl`. -/
theorem enqueue_no_temp_rename_counterexample :
    (enqueue_task_dict ".tasks" [("tool", Json.str "git")] "20240101000000").countP
        FsOp.isRename = 0 ∧
    enqueue_task_dict ".tasks" [("tool", Json.str "git")] "20240101000000" =
      [FsOp.mkdirP ".tasks/inbox",
       FsOp.writeFile ".tasks/inbox/task_20240101000000.jsonl"
         "\x7b\"tool\": \"git\", \"id\": \"20240101000000\"\x7d\n"] := by
  exact ⟨rfl, rfl⟩

/-- C1 amended: for every task, `enqueue_task_dict` ensures `inbox`
exists and then writes the envelope in one direct `write_text` to its
final name `task_<id>.jsonl`; no temporary file is created and no rename
is performed, so the write is not all-or-nothing with respect to a
concurrent scanner. -/
theorem enqueue_writes_directly (tasksDir : String) (task : JsonFields) (now : String) :
    ∃ tid content,
      enqueue_task_dict tasksDir task now =
        [FsOp.mkdirP (tasksDir ++ "/inbox"),
         FsOp.writeFile (tasksDir ++ "/inbox" ++ "/task_" ++ tid ++ ".jsonl") content] ∧
      ∀ op ∈ enqueue_task_dict tasksDir task now, op.isRename = false := by
  refine ⟨pyStr (if pyTruthy (getFieldD task "id" Json.null) then getFieldD task "id" Json.null
      else Json.str now),
    dumpJson (Json.obj (updateA task "id"
      (if pyTruthy (getFieldD task "id" Json.null) then getFieldD task "id" Json.null
        else Json.str now))) ++ "\n", rfl, ?_⟩
  intro op hop
  simp only [enqueue_task_dict, List.mem_cons, List.not_mem_nil, or_false] at hop
  rcases hop with h | h <;> subst h <;> rfl

/-- C7: whenever the file's current identity differs from the stored one,
or the file's size is smaller than the stored position, `_poll` resets
the position to 0, adopts the new identity, and emits exactly the
(non-blank) lines of the file's current content — no pre-truncation
lines, no error. -/
theorem logtailer_truncation_resets (st : TailerState) (f : TFile)
    (h : st.ident ≠ some (identOf f) ∨ f.content.length < st.pos) :
    LogTailer.poll st (some f) =
      (⟨f.content.length, some (identOf f)⟩, processChunk f.content) := by
  simp only [LogTailer.poll]
  rw [if_pos h]
  simp only [List.drop_zero]
  by_cases hc : f.content = []
  · rw [hc]; rfl
  · rw [if_neg (by simpa using hc)]

/-- C7 witness: the rotation-test scenario — "alpha\n" (6 bytes) was
fully consumed at position 6, the file is truncated and rewritten as
"beta\n" (5 bytes, same inode); the next poll emits exactly ["beta"]. -/
theorem logtailer_truncation_witness :
    ("beta\n".toList.length < 6) ∧
    LogTailer.poll ⟨6, some (1, 7)⟩ (some ⟨1, some 7, "beta\n".toList⟩) =
      (⟨5, some (1, 7)⟩, ["beta".toList]) := by
  refine ⟨by decide, ?_⟩
  have h := logtailer_truncation_resets ⟨6, some (1, 7)⟩ ⟨1, some 7, "beta\n".toList⟩
    (Or.inr (by decide))
  exact h.trans (by decide)

/-- C3: over an append-only file whose identity is unchanged, a poll that
starts with everything up to `consumed` already read emits only lines of
the appended `suffix`; lines emitted by earlier polls are never emitted
again. -/
theorem logtailer_append_emits_only_new (st : TailerState) (f : TFile)
    (consumed suffix : List Char)
    (hident : st.ident = some (identOf f))
    (hcontent : f.content = consumed ++ suffix)
    (hpos : st.pos = consumed.length) :
    LogTailer.poll st (some f) =
      (⟨f.content.length, st.ident⟩, processChunk suffix) := by
  have hle : st.pos ≤ f.content.length := by
    rw [hcontent, hpos]; simp
  have hcond : ¬ (st.ident ≠ some (identOf f) ∨ f.content.length < st.pos) := by
    push_neg
    exact ⟨hident, hle⟩
  simp only [LogTailer.poll]
  rw [if_neg hcond]
  have hdrop : f.content.drop st.pos = suffix := by
    rw [hcontent, hpos]; exact List.drop_left _ _
  rw [hdrop]
  by_cases hc : suffix = []
  · subst hc; rfl
  · rw [if_neg (by simpa using hc)]

/-- C3 witness: writing "a\nb\n" and polling emits ["a","b"]; appending
"c\n" and polling again emits exactly ["c"] — "a" and "b" are not
re-emitted. -/
theorem logtailer_append_witness :
    LogTailer.poll ⟨0, none⟩ (some ⟨1, some 7, "a\nb\n".toList⟩) =
      (⟨4, some (1, 7)⟩, ["a".toList, "b".toList]) ∧
    LogTailer.poll ⟨4, some (1, 7)⟩ (some ⟨1, some 7, "a\nb\nc\n".toList⟩) =
      (⟨6, some (1, 7)⟩, ["c".toList]) := by
  refine ⟨by decide, ?_⟩
  have h := logtailer_append_emits_only_new ⟨4, some (1, 7)⟩ ⟨1, some 7, "a\nb\nc\n".toList⟩
    "a\nb\n".toList "c\n".toList rfl (by decide) (by decide)
  exact h.trans (by decide)

/-- Per-id aggregation record built by the ledger loop of
`MetricsTab.refresh_metrics` (lines 246-251): the most recently seen
`tool` for the id and the attempt-number → record map.  (The code also
seeds a `"final": None` entry that is never read; it is omitted.) -/
structure TaskAgg where
  tool : String
  attempts : List (Int × JsonFields)
deriving Repr

abbrev Tasks := List (String × TaskAgg)

/-- `str(obj.get("id", "unknown"))` (line 246). -/
def rec_id (fields : JsonFields) : String := pyStr (getFieldD fields "id" (.str "unknown"))

/-- `str(obj.get("tool", "unknown"))` (line 247). -/
def rec_tool (fields : JsonFields) : String := pyStr (getFieldD fields "tool" (.str "unknown"))

/-- `int(obj.get("attempt", 0))` (line 248); `none` models a raised
`TypeError`/`ValueError`. -/
def rec_attempt (fields : JsonFields) : Option Int := pyInt (getFieldD fields "attempt" (.int 0))

def rec_attemptD (fields : JsonFields) : Int := (rec_attempt fields).getD 0

/-- One iteration of the grouping loop (lines 246-251) on a parsed
record; `none` models an uncaught exception (record is not a dict, or
`int(attempt)` raising). -/
def ledgerStep (tasks : Tasks) (j : Json) : Option Tasks :=
  match j with
  | .obj fields =>
    match rec_attempt fields with
    | none => none
    | some attempt =>
      let rec0 := (lookupA tasks (rec_id fields)).getD ⟨rec_tool fields, []⟩
      some (updateA tasks (rec_id fields)
        ⟨rec_tool fields, updateA rec0.attempts attempt fields⟩)
  | _ => none

/-- The grouping loop over the parsed non-blank ledger records. -/
def buildTasks (recs : List Json) : Option Tasks :=
  recs.foldlM ledgerStep []

/-- The same grouping loop, on records that are known to be dicts with
well-typed attempts (exception-free restriction of `ledgerStep`). -/
def ledgerStepP (tasks : Tasks) (fields : JsonFields) : Tasks :=
  let rec0 := (lookupA tasks (rec_id fields)).getD ⟨rec_tool fields, []⟩
  updateA tasks (rec_id fields)
    ⟨rec_tool fields, updateA rec0.attempts (rec_attemptD fields) fields⟩

def buildTasksP (recs : List JsonFields) : Tasks := recs.foldl ledgerStepP []

/-- `last_attempt = max(rec["attempts"].keys()); final =
rec["attempts"][last_attempt]` (lines 260-261): the entry with the
maximal attempt key (attempt keys are unique within a group). -/
def attemptsMax : List (Int × JsonFields) → Option (Int × JsonFields)
  | [] => none
  | e :: rest =>
    match attemptsMax rest with
    | none => some e
    | some e' => if e'.1 ≤ e.1 then some e else some e'

/-- The summary accumulated by the metrics loop (lines 253-275). -/
structure Summary where
  total : Nat
  success : Nat
  durations : List ℚ
  tool_stats : List (String × Nat × Nat)
deriving Repr

/-- The body of the metrics loop (lines 257-272) for one group: take the
final (max-attempt) record, count truthy `ok`, collect a numeric
duration (`duration_ms / 1000`), and bump the per-tool (total, success)
counters. -/
def summStep (s : Summary) (rec : String × TaskAgg) : Summary :=
  match attemptsMax rec.2.attempts with
  | none => s
  | some fin =>
    let ok := pyTruthy (getFieldD fin.2 "ok" .null)
    let success := s.success + (if ok then 1 else 0)
    let durations := match toRealQ (getFieldD fin.2 "duration_ms" .null) with
      | some q => s.durations ++ [q / 1000]
      | none => s.durations
    let stats := (lookupA s.tool_stats rec.2.tool).getD (0, 0)
    let stats' := (stats.1 + 1, stats.2 + (if ok then 1 else 0))
    { total := s.total, success := success, durations := durations,
      tool_stats := updateA s.tool_stats rec.2.tool stats' }

/-- Lines 253-272: `total = len(tasks)` up front, then the loop above
over every group. -/
def summarize (tasks : Tasks) : Summary :=
  tasks.foldl summStep ⟨tasks.length, 0, [], []⟩

/-- `success_rate = (success / total * 100) if total else 0.0`
(line 274). -/
def success_rate (s : Summary) : ℚ :=
  if s.total ≠ 0 then (s.success : ℚ) / (s.total : ℚ) * 100 else 0

/-- `avg_duration = (sum(durations) / len(durations)) if durations else
0.0` (line 275). -/
def avg_duration (s : Summary) : ℚ :=
  if s.durations ≠ [] then s.durations.sum / (s.durations.length : ℚ) else 0

/-- Lines 231-245: read the ledger text, split into lines, skip blank
lines, parse each line as JSON, silently skipping unparsable ones. -/
def parseLedger (text : String) : List Json :=
  (pySplitlines text).filterMap (fun ln =>
    let ln := pyStrip ln
    if ln = "" then none else jsonLoads ln)

/-- The whole metrics pipeline of `MetricsTab.refresh_metrics` on a
ledger file's text; `none` models an uncaught exception. -/
def refresh_metrics (text : String) : Option Summary :=
  (buildTasks (parseLedger text)).map summarize

/-- The histogram bucket thresholds exactly as in the code (line 307) —
note the stray leading 0. -/
def histBuckets : List ℚ := [0, 30, 60, 120, 300, 600]

/-- The labels the counts are displayed under (lines 319-326). -/
def histLabels : List String := ["<=30s", "<=60s", "<=120s", "<=300s", "<=600s", ">600s"]

/-- Lines 308-317: each duration increments the count at the index of the
first threshold it does not exceed, else the last index. -/
def histCounts (durations : List ℚ) : List Nat :=
  durations.foldl (fun counts d =>
    match histBuckets.findIdx? (fun limit => decide (d ≤ limit)) with
    | some idx => counts.set idx (counts.getD idx 0 + 1)
    | none => counts.set (counts.length - 1) (counts.getD (counts.length - 1) 0 + 1))
    (histBuckets.map (fun _ => 0))

/-- C5: the histogram contradicts the claim (and its own labels).  A
single task whose final outcome lasted 400 s (duration_ms = 400000) is
counted at index 5, displayed as ">600s", even though 400 ≤ 600; the
"<=600s" bucket (index 4) stays 0.  The stray leading 0 in `buckets`
shifts every bucket by one against the labels; durations in (300, 600]
and in (600, ∞) are merged into the last count. -/
theorem histogram_misplaces_400s :
    ∃ tasks,
      buildTasks [Json.obj [("id", Json.str "1"), ("ok", Json.bool true),
          ("duration_ms", Json.int 400000)]] = some tasks ∧
      (summarize tasks).durations = [(400 : ℚ)] ∧
      histCounts (summarize tasks).durations = [0, 0, 0, 0, 0, 1] ∧
      histLabels.get? 5 = some ">600s" ∧
      histLabels.get? 4 = some "<=600s" ∧
      (400 : ℚ) ≤ 600 ∧
      histCounts [(20 : ℚ)] = [0, 1, 0, 0, 0, 0] ∧
      histLabels.get? 1 = some "<=60s" ∧
      (0 : ℚ) < 20 ∧ (20 : ℚ) ≤ 30 := by
  have hd : (summarize [("1", ⟨"unknown",
        [((0 : Int), [("id", Json.str "1"), ("ok", Json.bool true),
          ("duration_ms", Json.int 400000)])]⟩)]).durations =
      [((400000 : Int) : ℚ) / 1000] := rfl
  have hq : ((400000 : Int) : ℚ) / 1000 = (400 : ℚ) := by norm_num
  refine ⟨[("1", ⟨"unknown",
      [((0 : Int), [("id", Json.str "1"), ("ok", Json.bool true),
        ("duration_ms", Json.int 400000)])]⟩)],
    rfl, ?_, ?_, rfl, rfl, by norm_num, ?_, rfl, by norm_num, by norm_num⟩
  · rw [hd, hq]
  · rw [hd, hq]; decide
  · decide

theorem lookupA_updateA_self {α β : Type} [DecidableEq α] (xs : List (α × β)) (k : α) (v : β) :
    lookupA (updateA xs k v) k = some v := by
  induction xs with
  | nil => simp [lookupA, updateA]
  | cons p rest ih =>
    obtain ⟨a, w⟩ := p
    by_cases ha : a = k
    · subst ha; simp [updateA, lookupA]
    · simp [updateA, lookupA, ha, ih]

theorem lookupA_updateA_ne {α β : Type} [DecidableEq α] (xs : List (α × β)) (k k' : α) (v : β)
    (h : k' ≠ k) : lookupA (updateA xs k v) k' = lookupA xs k' := by
  have hkk : k ≠ k' := fun he => h he.symm
  induction xs with
  | nil => simp [lookupA, updateA, hkk]
  | cons p rest ih =>
    obtain ⟨a, w⟩ := p
    by_cases ha : a = k
    · rw [ha]
      simp [updateA, lookupA, hkk]
    · simp only [updateA, if_neg ha, lookupA]
      by_cases ha' : a = k'
      · simp [ha']
      · simp [ha', ih]

theorem lookupA_removeA_ne {α β : Type} [DecidableEq α] (xs : List (α × β)) (k k' : α)
    (h : k' ≠ k) : lookupA (removeA xs k) k' = lookupA xs k' := by
  have hkk : k ≠ k' := fun he => h he.symm
  induction xs with
  | nil => simp [removeA]
  | cons p rest ih =>
    obtain ⟨a, w⟩ := p
    by_cases ha : a = k
    · rw [ha]
      simp [removeA, lookupA, hkk]
    · simp only [removeA, if_neg ha, lookupA]
      by_cases ha' : a = k'
      · simp [ha']
      · simp [ha', ih]

theorem lookupA_eq_none_iff {α β : Type} [DecidableEq α] (xs : List (α × β)) (k : α) :
    lookupA xs k = none ↔ k ∉ xs.map Prod.fst := by
  induction xs with
  | nil => simp [lookupA]
  | cons p rest ih =>
    obtain ⟨a, w⟩ := p
    by_cases ha : a = k
    · subst ha; simp [lookupA]
    · have hka : k ≠ a := fun he => ha he.symm
      simp [lookupA, ha, ih, hka]

theorem lookupA_removeA_self {α β : Type} [DecidableEq α] (xs : List (α × β)) (k : α)
    (hnd : (xs.map Prod.fst).Nodup) : lookupA (removeA xs k) k = none := by
  induction xs with
  | nil => simp [removeA, lookupA]
  | cons p rest ih =>
    obtain ⟨a, w⟩ := p
    simp only [List.map_cons, List.nodup_cons] at hnd
    by_cases ha : a = k
    · subst ha
      simp only [removeA, if_pos rfl]
      exact (lookupA_eq_none_iff rest a).mpr hnd.1
    · simp only [removeA, if_neg ha, lookupA, if_neg ha]
      exact ih hnd.2

theorem map_fst_updateA_of_mem {α β : Type} [DecidableEq α] (xs : List (α × β)) (k : α) (v : β)
    (h : k ∈ xs.map Prod.fst) : (updateA xs k v).map Prod.fst = xs.map Prod.fst := by
  induction xs with
  | nil => simp at h
  | cons p rest ih =>
    obtain ⟨a, w⟩ := p
    by_cases ha : a = k
    · subst ha; simp [updateA]
    · simp only [List.map_cons, List.mem_cons] at h
      rcases h with h | h
    
      · exact absurd h.symm ha
      · simp [updateA, ha, ih h]

theorem map_fst_updateA_of_not_mem {α β : Type} [DecidableEq α] (xs : List (α × β)) (k : α)
    (v : β) (h : k ∉ xs.map Prod.fst) :
    (updateA xs k v).map Prod.fst = xs.map Prod.fst ++ [k] := by
  induction xs with
  | nil => simp [updateA]
  | cons p rest ih =>
    obtain ⟨a, w⟩ := p
    simp only [List.map_cons, List.mem_cons] at h
    push_neg at h
    have ha : a ≠ k := fun he => h.1 he.symm
    simp [updateA, ha, ih h.2]

theorem nodup_map_fst_updateA {α β : Type} [DecidableEq α] (xs : List (α × β)) (k : α) (v : β)
    (hnd : (xs.map Prod.fst).Nodup) : ((updateA xs k v).map Prod.fst).Nodup := by
  by_cases h : k ∈ xs.map Prod.fst
  · rw [map_fst_updateA_of_mem xs k v h]; exact hnd
  · rw [map_fst_updateA_of_not_mem xs k v h]
    refine List.Nodup.append hnd (List.nodup_singleton k) ?_
    intro a ha hb
    rw [List.mem_singleton] at hb
    exact h (hb ▸ ha)

/-- The mutated breaker entry of `force_close_breaker` (lines 1110-1112):
`state = "closed"`, `fails = 0`, `until = now`. -/
def closedEntry (fs : JsonFields) (now : String) : JsonFields :=
  updateA (updateA (updateA fs "state" (.str "closed")) "fails" (.int 0)) "until" (.str now)

theorem closedEntry_state (fs : JsonFields) (now : String) :
    lookupA (closedEntry fs now) "state" = some (Json.str "closed") := by
  unfold closedEntry
  rw [lookupA_updateA_ne _ _ _ _ (by decide), lookupA_updateA_ne _ _ _ _ (by decide),
    lookupA_updateA_self]

theorem closedEntry_fails (fs : JsonFields) (now : String) :
    lookupA (closedEntry fs now) "fails" = some (Json.int 0) := by
  unfold closedEntry
  rw [lookupA_updateA_ne _ _ _ _ (by decide), lookupA_updateA_self]

theorem closedEntry_until (fs : JsonFields) (now : String) :
    lookupA (closedEntry fs now) "until" = some (Json.str now) := by
  unfold closedEntry
  rw [lookupA_updateA_self]

/-- `MainWindow.force_close_breaker` (lines 1107-1113) applied to the
parsed circuit-breaker document: for each selected tool name present in
the document, rewrite its entry to the closed state; names not present
are skipped.  `none` models an exception (an entry that is not a dict, so
item assignment raises and nothing is written back). -/
def force_close (doc : JsonFields) (tools : List String) (now : String) : Option JsonFields :=
  tools.foldlM (fun d t =>
    match lookupA d t with
    | none => some d
    | some (.obj fs) => some (updateA d t (.obj (closedEntry fs now)))
    | some _ => none) doc

/-- C6: for any force-close over the parsed breaker document whose named
entries are all dicts, the rewrite succeeds; every named tool present in
the document ends with `state = "closed"`, `fails = 0`, `until = now`;
names absent from the document stay absent (silently ignored, no error);
and the entry of every tool not named is written back unchanged. -/
theorem force_close_spec (doc : JsonFields) (tools : List String) (now : String)
    (hnd : tools.Nodup)
    (h : ∀ t ∈ tools, ∀ j, lookupA doc t = some j → ∃ fs, j = Json.obj fs) :
    ∃ doc', force_close doc tools now = some doc' ∧
      (∀ t ∈ tools, ∀ fs, lookupA doc t = some (Json.obj fs) →
        ∃ fs', lookupA doc' t = some (Json.obj fs') ∧
          lookupA fs' "state" = some (Json.str "closed") ∧
          lookupA fs' "fails" = some (Json.int 0) ∧
          lookupA fs' "until" = some (Json.str now)) ∧
      (∀ t ∈ tools, lookupA doc t = none → lookupA doc' t = none) ∧
      (∀ t, t ∉ tools → lookupA doc' t = lookupA doc t) := by
  induction tools generalizing doc with
  | nil =>
    exact ⟨doc, rfl, by simp, by simp, fun t _ => rfl⟩
  | cons t ts ih =>
    have hndts : ts.Nodup := (List.nodup_cons.mp hnd).2
    have htts : t ∉ ts := (List.nodup_cons.mp hnd).1
    cases hlt : lookupA doc t with
    | none =>
      have hstep : force_close doc (t :: ts) now = force_close doc ts now := by
        simp [force_close, List.foldlM_cons, hlt]
      obtain ⟨doc', hfc, h1, h2, h3⟩ := ih doc hndts
        (fun t' ht' => h t' (List.mem_cons_of_mem _ ht'))
      refine ⟨doc', hstep ▸ hfc, ?_, ?_, ?_⟩
      · intro t' ht' fs hfs
        rcases List.mem_cons.mp ht' with rfl | ht'
        · rw [hlt] at hfs; simp at hfs
        · exact h1 t' ht' fs hfs
      · intro t' ht' hfs
        rcases List.mem_cons.mp ht' with rfl | ht'
        · rw [h3 t' htts]; exact hfs
        · exact h2 t' ht' hfs
      · intro t' ht'
        exact h3 t' (fun hc => ht' (List.mem_cons_of_mem _ hc))
    | some j =>
      obtain ⟨fs, rfl⟩ := h t (List.mem_cons_self t ts) j hlt
      have hstep : force_close doc (t :: ts) now =
          force_close (updateA doc t (Json.obj (closedEntry fs now))) ts now := by
        simp [force_close, List.foldlM_cons, hlt]
      have hdoc1h : ∀ t' ∈ ts, ∀ j,
          lookupA (updateA doc t (Json.obj (closedEntry fs now))) t' = some j →
          ∃ fs0, j = Json.obj fs0 := by
        intro t' ht' j hj
        by_cases he : t' = t
        · subst he
          rw [lookupA_updateA_self] at hj
          exact ⟨closedEntry fs now, (Option.some.inj hj).symm⟩
        · rw [lookupA_updateA_ne _ _ _ _ he] at hj
          exact h t' (List.mem_cons_of_mem _ ht') j hj
      obtain ⟨doc', hfc, h1, h2, h3⟩ :=
        ih (updateA doc t (Json.obj (closedEntry fs now))) hndts hdoc1h
      refine ⟨doc', hstep ▸ hfc, ?_, ?_, ?_⟩
      · intro t' ht' fs0 hfs0
        rcases List.mem_cons.mp ht' with rfl | ht'
        · refine ⟨closedEntry fs now, ?_, closedEntry_state fs now,
            closedEntry_fails fs now, closedEntry_until fs now⟩
          rw [h3 t' htts]
          exact lookupA_updateA_self _ _ _
        · have hne : t' ≠ t := fun he => htts (he ▸ ht')
          exact h1 t' ht' fs0 (by rw [lookupA_updateA_ne _ _ _ _ hne]; exact hfs0)
      · intro t' ht' hfs0
        rcases List.mem_cons.mp ht' with rfl | ht'
        · rw [hlt] at hfs0; simp at hfs0
        · have hne : t' ≠ t := fun he => htts (he ▸ ht')
          exact h2 t' ht' (by rw [lookupA_updateA_ne _ _ _ _ hne]; exact hfs0)
      · intro t' ht'
        have hne : t' ≠ t := fun he => ht' (he ▸ List.mem_cons_self t ts)
        rw [h3 t' (fun hc => ht' (List.mem_cons_of_mem _ hc)),
          lookupA_updateA_ne _ _ _ _ hne]

/-- C6 witness: `force_close` on the document
`{"git": {"state": "open", "fails": 5, "until": "T0"}}` for the tools
`["git", "missing"]` succeeds, yields `state="closed"`, `fails=0`,
`until="T1"` for `git`, and stays silent about the absent `missing`. -/
theorem force_close_witness :
    ∃ doc',
      force_close [("git", Json.obj [("state", Json.str "open"), ("fails", Json.int 5),
          ("until", Json.str "T0")])] ["git", "missing"] "T1" = some doc' ∧
      (∃ fs', lookupA doc' "git" = some (Json.obj fs') ∧
        lookupA fs' "state" = some (Json.str "closed") ∧
        lookupA fs' "fails" = some (Json.int 0) ∧
        lookupA fs' "until" = some (Json.str "T1")) ∧
      lookupA doc' "missing" = none := by
  have hobj : ∀ t ∈ (["git", "missing"] : List String), ∀ j,
      lookupA [("git", Json.obj [("state", Json.str "open"), ("fails", Json.int 5),
        ("until", Json.str "T0")])] t = some j → ∃ fs, j = Json.obj fs := by
    intro t ht j hj
    rcases List.mem_cons.mp ht with rfl | ht
    · exact ⟨[("state", Json.str "open"), ("fails", Json.int 5), ("until", Json.str "T0")],
        (Option.some.inj hj).symm⟩
    · rcases List.mem_cons.mp ht with rfl | ht
      · rw [show lookupA [("git", Json.obj [("state", Json.str "open"), ("fails", Json.int 5),
          ("until", Json.str "T0")])] "missing" = none from rfl] at hj
        simp at hj
      · simp at ht
  obtain ⟨doc', hfc, h1, h2, h3⟩ := force_close_spec
    [("git", Json.obj [("state", Json.str "open"), ("fails", Json.int 5),
      ("until", Json.str "T0")])] ["git", "missing"] "T1" (by decide) hobj
  refine ⟨doc', hfc, ?_, ?_⟩
  · exact h1 "git" (by simp) _ rfl
  · exact h2 "missing" (by simp) rfl

/-- The file system visible to the edit-and-retry workflow: an
association list from paths to file contents (paths are unique keys). -/
abbrev FS := List (String × String)

/-- Outcome of the edit-and-retry workflow. -/
inductive EditOutcome where
  | emptyRejected
  | invalidJson
  | enqueued (newPath backupPath : String) (renamed : Bool)
deriving Repr, DecidableEq

theorem append_ne_self (s t : String) (h : t.length ≠ 0) : s ++ t ≠ s := by
  intro he
  have hl := congrArg String.length he
  rw [String.length_append] at hl
  omega

/-- `MainWindow.edit_retry_selected_dlq` after the editor dialog is
accepted, lines 1040-1063, for the original file
`origDir ++ "/" ++ origName`: strip the edited text; reject when empty
(line 1041); parse every non-blank line with `json.loads`, rejecting the
whole operation before any write if one fails (lines 1045-1051); on
success write the joined validated lines to
`inbox/edited_<ts>_<origName>` (lines 1053-1057) and rename the original
to `<origName>.bak` — `with_suffix(path.suffix + ".bak")` appends
`".bak"` — falling back to deleting the original when the rename raises
(modeled by `renameOk = false`, lines 1059-1063). -/
def edit_retry_selected_dlq (fs : FS) (tasksDir origDir origName : String)
    (text ts : String) (renameOk : Bool) : FS × EditOutcome :=
  let origPath := origDir ++ "/" ++ origName
  let t := pyStrip text
  if t = "" then (fs, .emptyRejected)
  else
    let lines := (pySplitlines t).filter (fun ln => !isBlank ln)
    if lines.any (fun ln => (jsonLoads ln).isNone) then (fs, .invalidJson)
    else
      let newPath := tasksDir ++ "/inbox" ++ "/edited_" ++ ts ++ "_" ++ origName
      let fs1 := updateA fs newPath (String.intercalate "\n" lines ++ "\n")
      let backup := origPath ++ ".bak"
      if renameOk then
        ((match lookupA fs1 origPath with
          | some c => updateA (removeA fs1 origPath) backup c
          | none => fs1), .enqueued newPath backup true)
      else
        (removeA fs1 origPath, .enqueued newPath backup false)

/-- C4: if any non-blank line of the edited text fails to parse as JSON,
the whole operation is rejected before any write — the file system is
returned exactly as it was, so the original file is untouched and nothing
is written anywhere. -/
theorem edit_retry_invalid_json_writes_nothing (fs : FS)
    (tasksDir origDir origName text ts : String) (renameOk : Bool)
    (h : ∃ ln ∈ (pySplitlines (pyStrip text)).filter (fun ln => !isBlank ln),
      (jsonLoads ln).isNone) :
    edit_retry_selected_dlq fs tasksDir origDir origName text ts renameOk =
      (fs, .invalidJson) := by
  simp only [edit_retry_selected_dlq]
  by_cases ht : pyStrip text = ""
  · exfalso
    obtain ⟨ln, hln, _⟩ := h
    rw [ht] at hln
    simp [pySplitlines, pySplitlinesL] at hln
  · rw [if_neg ht]
    have hany : ((pySplitlines (pyStrip text)).filter (fun ln => !isBlank ln)).any
        (fun ln => (jsonLoads ln).isNone) = true := by
      obtain ⟨ln, hln, hnone⟩ := h
      exact List.any_eq_true.mpr ⟨ln, hln, hnone⟩
    rw [if_pos hany]

/-- C4 witness: on the text consisting of the line `{}` followed by the
line `{bad` (the second line is invalid JSON), the operation is rejected
and the file system — original file included — is left untouched. -/
theorem edit_retry_invalid_json_witness :
    edit_retry_selected_dlq [(".tasks/failed/task_1.jsonl", "\x7b\"tool\": \"git\"\x7d\n")]
      ".tasks" ".tasks/failed" "task_1.jsonl" "\x7b\x7d\n\x7bbad" "20240101000000" true =
      ([(".tasks/failed/task_1.jsonl", "\x7b\"tool\": \"git\"\x7d\n")],
        EditOutcome.invalidJson) := by
  exact edit_retry_invalid_json_writes_nothing _ _ _ _ _ _ _
    ⟨"\x7bbad", by decide, by decide⟩

/-- C8: when the stripped text is non-empty and every non-blank line
parses as JSON, exactly one new file `edited_<ts>_<origName>` holding the
validated lines appears in `inbox`; the original file is gone from its
directory — renamed to `<origName>.bak` when the rename succeeds, deleted
when it fails — and every other path is untouched, so two live copies of
the task never remain. -/
theorem edit_retry_success_spec (fs : FS) (tasksDir origDir origName text ts : String)
    (renameOk : Bool) (c : String)
    (hnd : (fs.map Prod.fst).Nodup)
    (horig : lookupA fs (origDir ++ "/" ++ origName) = some c)
    (hbak : lookupA fs (origDir ++ "/" ++ origName ++ ".bak") = none)
    (hne1 : tasksDir ++ "/inbox" ++ "/edited_" ++ ts ++ "_" ++ origName ≠
      origDir ++ "/" ++ origName)
    (hne2 : tasksDir ++ "/inbox" ++ "/edited_" ++ ts ++ "_" ++ origName ≠
      origDir ++ "/" ++ origName ++ ".bak")
    (ht : pyStrip text ≠ "")
    (hval : ∀ ln ∈ (pySplitlines (pyStrip text)).filter (fun ln => !isBlank ln),
      (jsonLoads ln).isSome) :
    ∃ fs',
      edit_retry_selected_dlq fs tasksDir origDir origName text ts renameOk =
        (fs', .enqueued (tasksDir ++ "/inbox" ++ "/edited_" ++ ts ++ "_" ++ origName)
          (origDir ++ "/" ++ origName ++ ".bak") renameOk) ∧
      lookupA fs' (tasksDir ++ "/inbox" ++ "/edited_" ++ ts ++ "_" ++ origName) =
        some (String.intercalate "\n"
          ((pySplitlines (pyStrip text)).filter (fun ln => !isBlank ln)) ++ "\n") ∧
      lookupA fs' (origDir ++ "/" ++ origName) = none ∧
      lookupA fs' (origDir ++ "/" ++ origName ++ ".bak") =
        (if renameOk then some c else none) ∧
      (∀ p, p ≠ tasksDir ++ "/inbox" ++ "/edited_" ++ ts ++ "_" ++ origName →
        p ≠ origDir ++ "/" ++ origName →
        p ≠ origDir ++ "/" ++ origName ++ ".bak" →
        lookupA fs' p = lookupA fs p) := by
  have hob : origDir ++ "/" ++ origName ++ ".bak" ≠ origDir ++ "/" ++ origName :=
    append_ne_self _ ".bak" (by decide)
  have hbo : origDir ++ "/" ++ origName ≠ origDir ++ "/" ++ origName ++ ".bak" :=
    fun he => hob he.symm
  have hany : ((pySplitlines (pyStrip text)).filter (fun ln => !isBlank ln)).any
      (fun ln => (jsonLoads ln).isNone) = false := by
    rw [List.any_eq_false]
    intro ln hln hcon
    have h2 := hval ln hln
    rw [Option.isNone_iff_eq_none] at hcon
    rw [hcon] at h2
    simp at h2
  have hfs1orig : lookupA
      (updateA fs (tasksDir ++ "/inbox" ++ "/edited_" ++ ts ++ "_" ++ origName)
        (String.intercalate "\n"
          ((pySplitlines (pyStrip text)).filter (fun ln => !isBlank ln)) ++ "\n"))
      (origDir ++ "/" ++ origName) = some c := by
    rw [lookupA_updateA_ne _ _ _ _ (fun he => hne1 he.symm)]
    exact horig
  have hnd1 : ((updateA fs (tasksDir ++ "/inbox" ++ "/edited_" ++ ts ++ "_" ++ origName)
      (String.intercalate "\n"
        ((pySplitlines (pyStrip text)).filter (fun ln => !isBlank ln)) ++ "\n")).map
      Prod.fst).Nodup := nodup_map_fst_updateA _ _ _ hnd
  simp only [edit_retry_selected_dlq]
  rw [if_neg ht]
  rw [if_neg (show ¬ (((pySplitlines (pyStrip text)).filter (fun ln => !isBlank ln)).any
      (fun ln => (jsonLoads ln).isNone) = true) by rw [hany]; exact Bool.false_ne_true)]
  cases renameOk with
  | false =>
    rw [if_neg Bool.false_ne_true]
    refine ⟨_, rfl, ?_, ?_, ?_, ?_⟩
    · rw [lookupA_removeA_ne _ _ _ hne1, lookupA_updateA_self]
    · exact lookupA_removeA_self _ _ hnd1
    · rw [if_neg Bool.false_ne_true, lookupA_removeA_ne _ _ _ hob,
        lookupA_updateA_ne _ _ _ _ (fun he => hne2 he.symm)]
      exact hbak
    · intro p hp1 hp2 _
      rw [lookupA_removeA_ne _ _ _ hp2, lookupA_updateA_ne _ _ _ _ hp1]
  | true =>
    rw [if_pos rfl, hfs1orig]
    refine ⟨_, rfl, ?_, ?_, ?_, ?_⟩
    · rw [lookupA_updateA_ne _ _ _ _ hne2, lookupA_removeA_ne _ _ _ hne1,
        lookupA_updateA_self]
    · rw [lookupA_updateA_ne _ _ _ _ hbo]
      exact lookupA_removeA_self _ _ hnd1
    · rw [if_pos rfl, lookupA_updateA_self]
    · intro p hp1 hp2 hp3
      rw [lookupA_updateA_ne _ _ _ _ hp3, lookupA_removeA_ne _ _ _ hp2,
        lookupA_updateA_ne _ _ _ _ hp1]

/-- C8 witness: editing `failed/task_1.jsonl` to one valid JSON line
yields exactly one new inbox file `edited_<ts>_task_1.jsonl` with that
line, and the original becomes `task_1.jsonl.bak`. -/
theorem edit_retry_success_witness :
    ∃ fs',
      edit_retry_selected_dlq [(".tasks/failed/task_1.jsonl", "\x7b\"tool\": \"git\"\x7d\n")]
        ".tasks" ".tasks/failed" "task_1.jsonl" "\x7b\"tool\": \"aider\"\x7d"
        "20240101000000" true =
        (fs', .enqueued ".tasks/inbox/edited_20240101000000_task_1.jsonl"
          ".tasks/failed/task_1.jsonl.bak" true) ∧
      lookupA fs' ".tasks/inbox/edited_20240101000000_task_1.jsonl" =
        some "\x7b\"tool\": \"aider\"\x7d\n" ∧
      lookupA fs' ".tasks/failed/task_1.jsonl" = none ∧
      lookupA fs' ".tasks/failed/task_1.jsonl.bak" = some "\x7b\"tool\": \"git\"\x7d\n" := by
  obtain ⟨fs', h1, h2, h3, h4, _⟩ := edit_retry_success_spec
    [(".tasks/failed/task_1.jsonl", "\x7b\"tool\": \"git\"\x7d\n")]
    ".tasks" ".tasks/failed" "task_1.jsonl" "\x7b\"tool\": \"aider\"\x7d" "20240101000000"
    true "\x7b\"tool\": \"git\"\x7d\n" (by decide) (by decide) (by decide) (by decide)
    (by decide) (by decide) (by decide)
  exact ⟨fs', h1, h2, h3, h4⟩

/-- Association-list lookup keyed by a boolean equality (Python dict
lookup with `==` keys that need not be Lean-decidable, e.g. JSON
values). -/
def lookupABy {α β : Type} (beq : α → α → Bool) : List (α × β) → α → Option β
  | [], _ => none
  | (k, v) :: rest, key => if beq k key then some v else lookupABy beq rest key

/-- Association-list update keyed by a boolean equality. -/
def updateABy {α β : Type} (beq : α → α → Bool) : List (α × β) → α → β → List (α × β)
  | [], key, v => [(key, v)]
  | (k, w) :: rest, key, v =>
      if beq k key then (k, v) :: rest else (k, w) :: updateABy beq rest key v

theorem lookupABy_updateABy_self {α β : Type} (beq : α → α → Bool) (xs : List (α × β))
    (k : α) (v : β) (hrefl : beq k k = true) :
    lookupABy beq (updateABy beq xs k v) k = some v := by
  induction xs with
  | nil => simp [lookupABy, updateABy, hrefl]
  | cons p rest ih =>
    obtain ⟨a, w⟩ := p
    by_cases hb : beq a k = true
    · simp [updateABy, lookupABy, hb]
    · rw [Bool.not_eq_true] at hb
      simp [updateABy, lookupABy, hb, ih]

theorem lookupABy_updateABy_ne {α β : Type} (beq : α → α → Bool) (xs : List (α × β))
    (k k' : α) (v : β) (h : beq k k' = false)
    (hcomp : ∀ a, beq a k = true → beq a k' = false) :
    lookupABy beq (updateABy beq xs k v) k' = lookupABy beq xs k' := by
  induction xs with
  | nil => simp [lookupABy, updateABy, h]
  | cons p rest ih =>
    obtain ⟨a, w⟩ := p
    by_cases hb : beq a k = true
    · simp [updateABy, lookupABy, hb, hcomp a hb]
    · rw [Bool.not_eq_true] at hb
      simp only [updateABy, hb, Bool.false_eq_true, if_false, lookupABy]
      by_cases hb' : beq a k' = true
      · simp [hb']
      · rw [Bool.not_eq_true] at hb'
        simp [hb', ih]

theorem jbeq_str_elim (a : Json) (n : String) (h : Json.beq a (Json.str n) = true) :
    a = Json.str n := by
  cases a with
  | str x => exact congrArg Json.str (eq_of_beq h)
  | null => exact Bool.noConfusion h
  | bool b => exact Bool.noConfusion h
  | int m => exact Bool.noConfusion h
  | float q => exact Bool.noConfusion h
  | arr xs => exact Bool.noConfusion h
  | obj fs => exact Bool.noConfusion h

/-- What `TemplatesModel.load` (lines 516-529) does with the parsed
document. -/
inductive LoadResult where
  | error
  | untouched
  | set (catalog : List (Json × Json))
deriving Repr

/-- The dict-comprehension of lines 521-524:
`{item.get("name", f"Template {i+1}"): item.get("task", {}) for i, item
in enumerate(data)}`.  A non-dict item raises (`none`, the outer `except`
leaves the catalog unchanged); duplicate names overwrite at the first
occurrence's position, like a Python dict build. -/
def loadItems : Nat → List (Json × Json) → List Json → Option (List (Json × Json))
  | _, acc, [] => some acc
  | i, acc, item :: rest =>
    match item with
    | .obj fs =>
      loadItems (i + 1)
        (updateABy Json.beq acc (getFieldD fs "name" (.str ("Template " ++ toString (i + 1))))
          (getFieldD fs "task" (.obj []))) rest
    | _ => none

/-- `TemplatesModel.load` (lines 516-529) applied to the parsed document:
a JSON array is turned into the name→task dict of lines 521-524; a JSON
dict is installed verbatim as the catalog (its keys become the template
names); any other value leaves the templates unchanged.  There is no
branch for a `{templates: [...]}` wrapper. -/
def TemplatesModel.load (data : Json) : LoadResult :=
  match data with
  | .arr items =>
    match loadItems 0 [] items with
    | some catalog => .set catalog
    | none => .error
  | .obj fields => .set (fields.map (fun p => (Json.str p.1, p.2)))
  | _ => .untouched

/-- C9 counterexample: a wrapper document `{templates: [{name: "X",
task: {tool: "git"}}]}` is not unwrapped.  Loading it installs a catalog
with the single entry named "templates" whose task is the raw array —
not the named template "X" the document describes. -/
theorem templates_load_wrapper_counterexample :
    TemplatesModel.load (Json.obj [("templates", Json.arr [Json.obj
        [("name", Json.str "X"), ("task", Json.obj [("tool", Json.str "git")])]])]) =
      LoadResult.set [(Json.str "templates", Json.arr [Json.obj
        [("name", Json.str "X"), ("task", Json.obj [("tool", Json.str "git")])]])] ∧
    [(Json.str "templates", Json.arr [Json.obj
        [("name", Json.str "X"), ("task", Json.obj [("tool", Json.str "git")])]])].map
      Prod.fst = [Json.str "templates"] ∧
    Json.str "templates" ≠ Json.str "X" := by
  refine ⟨rfl, rfl, ?_⟩
  intro h
  injection h with h'
  exact absurd h' (by decide)

/-- The name of an external template item, when the item is a dict whose
`name` field is a string. -/
def templateName : Json → Option String
  | .obj fs =>
    match lookupA fs "name" with
    | some (.str s) => some s
    | _ => none
  | _ => none

/-- The task of an external template item (`item.get("task", {})`). -/
def templateTask : Json → Json
  | .obj fs => getFieldD fs "task" (.obj [])
  | _ => .obj []

theorem loadItems_spec (items : List Json) :
    ∀ i (acc : List (Json × Json)),
    (∀ j ∈ items, ∃ fs name, j = Json.obj fs ∧ lookupA fs "name" = some (Json.str name)) →
    (items.filterMap templateName).Nodup →
    ∃ cat, loadItems i acc items = some cat ∧
      (∀ k : String, (∀ j ∈ items, templateName j ≠ some k) →
        lookupABy Json.beq cat (Json.str k) = lookupABy Json.beq acc (Json.str k)) ∧
      (∀ j ∈ items, ∀ n, templateName j = some n →
        lookupABy Json.beq cat (Json.str n) = some (templateTask j)) := by
  induction items with
  | nil =>
    intro i acc _ _
    exact ⟨acc, rfl, fun k _ => rfl, by simp⟩
  | cons item rest ih =>
    intro i acc h hnd
    obtain ⟨fs, n, hitem, hname⟩ := h item (List.mem_cons_self _ _)
    subst hitem
    have htn : templateName (Json.obj fs) = some n := by
      simp [templateName, hname]
    have hfm : (Json.obj fs :: rest).filterMap templateName =
        n :: rest.filterMap templateName := by
      rw [List.filterMap_cons, htn]
    rw [hfm] at hnd
    have hndr := (List.nodup_cons.mp hnd).2
    have hnin : n ∉ rest.filterMap templateName := (List.nodup_cons.mp hnd).1
    have hnotin : ∀ j ∈ rest, templateName j ≠ some n := by
      intro j hj hc
      exact hnin (List.mem_filterMap.mpr ⟨j, hj, hc⟩)
    have hkey : getFieldD fs "name" (Json.str ("Template " ++ toString (i + 1))) =
        Json.str n := by
      unfold getFieldD
      rw [hname]
      rfl
    obtain ⟨cat, hlo, hframe, hcorrect⟩ := ih (i + 1)
      (updateABy Json.beq acc (Json.str n) (getFieldD fs "task" (Json.obj [])))
      (fun j hj => h j (List.mem_cons_of_mem _ hj)) hndr
    refine ⟨cat, ?_, ?_, ?_⟩
    · simp only [loadItems]
      rw [hkey]
      exact hlo
    · intro k hk
      have hnk : n ≠ k := by
        intro he
        exact hk _ (List.mem_cons_self _ _) (he ▸ htn)
      rw [hframe k (fun j hj => hk j (List.mem_cons_of_mem _ hj))]
      refine lookupABy_updateABy_ne _ _ _ _ _ ?_ ?_
      · exact beq_eq_false_iff_ne.mpr hnk
      · intro a ha
        rw [jbeq_str_elim a n ha]
        exact beq_eq_false_iff_ne.mpr hnk
    · intro j hj n' hn'
      rcases List.mem_cons.mp hj with rfl | hj
      · rw [htn] at hn'
        have hnn : n = n' := Option.some.inj hn'
        subst hnn
        rw [hframe n hnotin]
        rw [lookupABy_updateABy_self Json.beq acc (Json.str n)
          (getFieldD fs "task" (Json.obj []))
          (show Json.beq (Json.str n) (Json.str n) = true from beq_self_eq_true n)]
        rfl
      · exact hcorrect j hj n' hn'

/-- C9 amended: the loader accepts exactly two of the three claimed
shapes.  A JSON object is installed verbatim, its keys being the
template names; a JSON array of dict items with (distinct, string) names
yields the catalog of exactly those named templates (missing `task`
defaults to the empty dict).  A `{templates: [...]}` wrapper is not
unwrapped: it falls into the verbatim-dict branch (see the
counterexample). -/
theorem templates_load_two_shapes :
    (∀ fields : JsonFields,
      TemplatesModel.load (Json.obj fields) =
        LoadResult.set (fields.map (fun p => (Json.str p.1, p.2))) ∧
      ∀ k : String,
        lookupABy Json.beq (fields.map (fun p => (Json.str p.1, p.2))) (Json.str k) =
          lookupA fields k) ∧
    (∀ items : List Json,
      (∀ j ∈ items, ∃ fs name, j = Json.obj fs ∧ lookupA fs "name" = some (Json.str name)) →
      (items.filterMap templateName).Nodup →
      ∃ catalog, TemplatesModel.load (Json.arr items) = LoadResult.set catalog ∧
        ∀ j ∈ items, ∀ n, templateName j = some n →
          lookupABy Json.beq catalog (Json.str n) = some (templateTask j)) := by
  constructor
  · intro fields
    refine ⟨rfl, ?_⟩
    intro k
    induction fields with
    | nil => rfl
    | cons p rest ih =>
      obtain ⟨a, v⟩ := p
      simp only [List.map_cons, lookupABy, lookupA]
      by_cases ha : a = k
      · subst ha
        rw [if_pos (show Json.beq (Json.str a) (Json.str a) = true from beq_self_eq_true a),
          if_pos rfl]
      · have hb : Json.beq (Json.str a) (Json.str k) = false := beq_eq_false_iff_ne.mpr ha
        rw [if_neg (by rw [hb]; exact Bool.false_ne_true), if_neg ha, ih]
  · intro items h hnd
    obtain ⟨cat, hlo, _, hcorrect⟩ := loadItems_spec items 0 [] h hnd
    refine ⟨cat, ?_, hcorrect⟩
    simp only [TemplatesModel.load, hlo]

/-- C9 amended witness: a verbatim dict document installs its entries,
and a list document installs its named template ("Custom" → its task). -/
theorem templates_load_two_shapes_witness :
    (TemplatesModel.load (Json.obj [("Git Fetch", Json.obj [("tool", Json.str "git")])]) =
      LoadResult.set [(Json.str "Git Fetch", Json.obj [("tool", Json.str "git")])]) ∧
    (∃ catalog,
      TemplatesModel.load (Json.arr [Json.obj [("name", Json.str "Custom"),
        ("task", Json.obj [("tool", Json.str "git")])]]) = LoadResult.set catalog ∧
      lookupABy Json.beq catalog (Json.str "Custom") =
        some (Json.obj [("tool", Json.str "git")])) := by
  constructor
  · exact (templates_load_two_shapes.1 _).1
  · obtain ⟨cat, hlo, hc⟩ := templates_load_two_shapes.2
      [Json.obj [("name", Json.str "Custom"), ("task", Json.obj [("tool", Json.str "git")])]]
      (by
        intro j hj
        rcases List.mem_cons.mp hj with rfl | h0
        · exact ⟨_, "Custom", rfl, rfl⟩
        · simp at h0)
      (by decide)
    exact ⟨cat, hlo, hc _ (List.mem_cons_self _ _) "Custom" rfl⟩

/-- The distinct elements of a list in first-occurrence order — the key
order in which the Python dict `tasks` accumulates its groups. -/
def firstDedup (l : List String) : List String :=
  l.foldl (fun acc x => if x ∈ acc then acc else acc ++ [x]) []

theorem nodup_append_singleton {α : Type} (l : List α) (x : α) (h : l.Nodup) (hx : x ∉ l) :
    (l ++ [x]).Nodup := by
  refine List.Nodup.append h (List.nodup_singleton x) ?_
  intro a ha hb
  rw [List.mem_singleton] at hb
  exact hx (hb ▸ ha)

theorem firstDedup_go_mem (l : List String) : ∀ (acc : List String) (x : String),
    (x ∈ l.foldl (fun acc x => if x ∈ acc then acc else acc ++ [x]) acc ↔
      x ∈ acc ∨ x ∈ l) := by
  induction l with
  | nil => simp
  | cons y rest ih =>
    intro acc x
    simp only [List.foldl_cons]
    by_cases hy : y ∈ acc
    · rw [if_pos hy, ih]
      simp only [List.mem_cons]
      constructor
      · rintro (h | h)
        · exact Or.inl h
        · exact Or.inr (Or.inr h)
      · rintro (h | h | h)
        · exact Or.inl h
        · exact Or.inl (h ▸ hy)
        · exact Or.inr h
    · rw [if_neg hy, ih]
      simp only [List.mem_append, List.mem_singleton, List.mem_cons]
      tauto

theorem firstDedup_go_nodup (l : List String) : ∀ (acc : List String), acc.Nodup →
    (l.foldl (fun acc x => if x ∈ acc then acc else acc ++ [x]) acc).Nodup := by
  induction l with
  | nil => intro acc h; exact h
  | cons y rest ih =>
    intro acc h
    simp only [List.foldl_cons]
    by_cases hy : y ∈ acc
    · rw [if_pos hy]; exact ih acc h
    · rw [if_neg hy]; exact ih _ (nodup_append_singleton acc y h hy)

theorem mem_firstDedup (l : List String) (x : String) : x ∈ firstDedup l ↔ x ∈ l := by
  have h := firstDedup_go_mem l [] x
  simpa [firstDedup] using h

theorem firstDedup_nodup (l : List String) : (firstDedup l).Nodup :=
  firstDedup_go_nodup l [] (by simp)

theorem firstDedup_concat (l : List String) (x : String) :
    firstDedup (l ++ [x]) =
      if x ∈ firstDedup l then firstDedup l else firstDedup l ++ [x] := by
  unfold firstDedup
  rw [List.foldl_append]
  rfl

theorem lookupA_map_graph {β : Type} (ids : List String) (f : String → β) (tid : String) :
    lookupA (ids.map (fun t => (t, f t))) tid =
      if tid ∈ ids then some (f tid) else none := by
  induction ids with
  | nil => simp [lookupA]
  | cons a rest ih =>
    simp only [List.map_cons, lookupA]
    by_cases ha : a = tid
    · subst ha; simp
    · rw [if_neg ha, ih]
      by_cases hm : tid ∈ rest
      · rw [if_pos hm, if_pos (List.mem_cons_of_mem _ hm)]
      · rw [if_neg hm, if_neg (by
          intro hc
          rcases List.mem_cons.mp hc with h | h
          · exact ha h.symm
          · exact hm h)]

theorem updateA_map_graph_mem {β : Type} (ids : List String) (f : String → β) (tid : String)
    (v : β) (hnd : ids.Nodup) (h : tid ∈ ids) :
    updateA (ids.map (fun t => (t, f t))) tid v =
      ids.map (fun t => (t, if t = tid then v else f t)) := by
  induction ids with
  | nil => simp at h
  | cons a rest ih =>
    simp only [List.map_cons, updateA]
    by_cases ha : a = tid
    · subst ha
      rw [if_pos rfl]
      simp only [if_pos rfl]
      congr 1
      apply List.map_congr_left
      intro t ht
      have hta : t ≠ a := fun he => (List.nodup_cons.mp hnd).1 (he ▸ ht)
      simp [hta]
    · rw [if_neg ha]
      have hm : tid ∈ rest := by
        rcases List.mem_cons.mp h with h' | h'
        · exact absurd h'.symm ha
        · exact h'
      rw [ih (List.nodup_cons.mp hnd).2 hm]
      simp [ha]

theorem updateA_map_graph_notmem {β : Type} (ids : List String) (f : String → β)
    (tid : String) (v : β) (h : tid ∉ ids) :
    updateA (ids.map (fun t => (t, f t))) tid v =
      (ids ++ [tid]).map (fun t => (t, if t = tid then v else f t)) := by
  induction ids with
  | nil => simp [updateA]
  | cons a rest ih =>
    have ha : a ≠ tid := fun he => h (he ▸ List.mem_cons_self a rest)
    have hm : tid ∉ rest := fun hc => h (List.mem_cons_of_mem _ hc)
    simp only [List.map_cons, updateA, if_neg ha, List.cons_append, List.map_cons]
    rw [ih hm]

theorem attemptsMax_updateA (m : List (Int × JsonFields)) (a : Int) (v : JsonFields) :
    attemptsMax (updateA m a v) = match attemptsMax m with
      | none => some (a, v)
      | some e => if e.1 ≤ a then some (a, v) else some e := by
  induction m with
  | nil => rfl
  | cons e0 rest ih =>
    obtain ⟨k, w⟩ := e0
    by_cases hk : k = a
    · subst hk
      simp only [updateA, if_pos rfl, attemptsMax]
      cases hr : attemptsMax rest with
      | none => simp
      | some e' =>
        obtain ⟨a', w'⟩ := e'
        by_cases h1 : a' ≤ k <;> simp [h1]
    · simp only [updateA, if_neg hk, attemptsMax, ih]
      cases hr : attemptsMax rest with
      | none =>
        rcases lt_or_gt_of_ne hk with hka | hka
        · simp [not_le.mpr hka, le_of_lt hka]
        · simp [le_of_lt hka, not_le.mpr hka]
      | some e' =>
        obtain ⟨a', w'⟩ := e'
        rcases lt_or_gt_of_ne hk with hka | hka
        · have h3 : ¬ a ≤ k := not_le.mpr hka
          have h4 : k ≤ a := le_of_lt hka
          by_cases h1 : a' ≤ a <;> by_cases h2 : a' ≤ k <;>
            simp [h1, h2, h3, h4] <;> first | rfl | (exfalso; omega)
        · have h3 : a ≤ k := le_of_lt hka
          have h4 : ¬ k ≤ a := not_le.mpr hka
          by_cases h1 : a' ≤ a <;> by_cases h2 : a' ≤ k <;>
            simp [h1, h2, h3, h4] <;> first | rfl | (exfalso; omega)

/-- The records of one task id, in ledger order (the claim's "groups
parsed records by id"). -/
def spec_group (recs : List JsonFields) (tid : String) : List JsonFields :=
  recs.filter (fun fs => rec_id fs == tid)

/-- The attempt-number → record map a group accumulates; a duplicate
attempt number overwrites, like the Python dict on line 251. -/
def groupAttempts (grp : List JsonFields) : List (Int × JsonFields) :=
  grp.foldl (fun m fs => updateA m (rec_attemptD fs) fs) []

/-- The most recently seen tool of a group (line 250 overwrites on every
record). -/
def groupTool (grp : List JsonFields) : String :=
  match grp.getLast? with
  | some fs => rec_tool fs
  | none => "unknown"

/-- One step of picking the max-attempt record (the claim's words; on
equal attempts the later record wins, matching the dict overwrite). -/
def finalStep (best : Option JsonFields) (fs : JsonFields) : Option JsonFields :=
  match best with
  | none => some fs
  | some b => if rec_attemptD b ≤ rec_attemptD fs then some fs else some b

/-- The claim's final outcome of a task: the record of its group with
the maximum attempt value (a missing attempt counts as 0). -/
def final_outcome (recs : List JsonFields) (tid : String) : Option JsonFields :=
  (spec_group recs tid).foldl finalStep none

/-- The distinct task ids of the ledger, in first-appearance order. -/
def distinct_ids (recs : List JsonFields) : List String :=
  firstDedup (recs.map rec_id)

theorem groupAttempts_concat (grp : List JsonFields) (fs : JsonFields) :
    groupAttempts (grp ++ [fs]) = updateA (groupAttempts grp) (rec_attemptD fs) fs := by
  unfold groupAttempts
  rw [List.foldl_append]
  rfl

theorem groupTool_concat (grp : List JsonFields) (fs : JsonFields) :
    groupTool (grp ++ [fs]) = rec_tool fs := by
  unfold groupTool
  rw [List.getLast?_concat]

theorem spec_group_concat_ne (recs : List JsonFields) (fs : JsonFields) (tid : String)
    (h : rec_id fs ≠ tid) : spec_group (recs ++ [fs]) tid = spec_group recs tid := by
  unfold spec_group
  rw [List.filter_append]
  simp [beq_eq_false_iff_ne.mpr h]

theorem spec_group_concat_self (recs : List JsonFields) (fs : JsonFields) :
    spec_group (recs ++ [fs]) (rec_id fs) = spec_group recs (rec_id fs) ++ [fs] := by
  unfold spec_group
  rw [List.filter_append]
  simp

theorem spec_group_nil_of_not_mem (recs : List JsonFields) (tid : String)
    (h : tid ∉ recs.map rec_id) : spec_group recs tid = [] := by
  unfold spec_group
  rw [List.filter_eq_nil_iff]
  intro fs hfs hc
  exact h (List.mem_map.mpr ⟨fs, hfs, eq_of_beq hc⟩)

/-- Structure of the grouping loop's result: one entry per distinct id in
first-appearance order, carrying the group's latest tool and its
attempt-keyed record map. -/
theorem buildTasksP_eq_map (recs : List JsonFields) :
    buildTasksP recs = (distinct_ids recs).map
      (fun tid => (tid, (⟨groupTool (spec_group recs tid),
        groupAttempts (spec_group recs tid)⟩ : TaskAgg))) := by
  induction recs using List.reverseRecOn with
  | nil => rfl
  | append_singleton recs fs ih =>
    have hstep : buildTasksP (recs ++ [fs]) = ledgerStepP (buildTasksP recs) fs := by
      unfold buildTasksP
      rw [List.foldl_append]
      rfl
    have hids : distinct_ids (recs ++ [fs]) =
        if rec_id fs ∈ distinct_ids recs then distinct_ids recs
        else distinct_ids recs ++ [rec_id fs] := by
      unfold distinct_ids
      rw [List.map_append]
      exact firstDedup_concat _ _
    rw [hstep, ih]
    by_cases hmem : rec_id fs ∈ distinct_ids recs
    · rw [hids, if_pos hmem]
      unfold ledgerStepP
      rw [lookupA_map_graph, if_pos hmem]
      simp only [Option.getD_some]
      rw [updateA_map_graph_mem (distinct_ids recs)
        (fun tid => (⟨groupTool (spec_group recs tid),
          groupAttempts (spec_group recs tid)⟩ : TaskAgg))
        (rec_id fs) _ (firstDedup_nodup _) hmem]
      apply List.map_congr_left
      intro t ht
      by_cases hteq : t = rec_id fs
      · subst hteq
        rw [spec_group_concat_self, groupTool_concat, groupAttempts_concat]
        simp
      · rw [if_neg hteq, spec_group_concat_ne recs fs t (fun he => hteq he.symm)]
    · rw [hids, if_neg hmem]
      unfold ledgerStepP
      rw [lookupA_map_graph, if_neg hmem]
      simp only [Option.getD_none]
      rw [updateA_map_graph_notmem (distinct_ids recs)
        (fun tid => (⟨groupTool (spec_group recs tid),
          groupAttempts (spec_group recs tid)⟩ : TaskAgg))
        (rec_id fs) _ hmem]
      apply List.map_congr_left
      intro t ht
      rcases List.mem_append.mp ht with htl | htr
      · have hteq : t ≠ rec_id fs := fun he => hmem (he ▸ htl)
        rw [if_neg hteq, spec_group_concat_ne recs fs t (fun he => hteq he.symm)]
      · have hteq : t = rec_id fs := by simpa using htr
        subst hteq
        have hnil : spec_group recs (rec_id fs) = [] :=
          spec_group_nil_of_not_mem recs (rec_id fs)
            (fun hc => hmem ((mem_firstDedup _ _).mpr hc))
        rw [spec_group_concat_self, hnil]
        simp [groupTool, groupAttempts]

theorem attemptsMax_eq_none_iff (m : List (Int × JsonFields)) :
    attemptsMax m = none ↔ m = [] := by
  cases m with
  | nil => simp [attemptsMax]
  | cons e0 rest =>
    simp only [attemptsMax]
    cases attemptsMax rest with
    | none => simp
    | some e' =>
      by_cases h : e'.1 ≤ e0.1 <;> simp [h]

theorem attemptsMax_mem (m : List (Int × JsonFields)) (e : Int × JsonFields)
    (h : attemptsMax m = some e) : e ∈ m := by
  induction m generalizing e with
  | nil => simp [attemptsMax] at h
  | cons e0 rest ih =>
    simp only [attemptsMax] at h
    split at h
    · exact (Option.some.inj h) ▸ List.mem_cons_self _ _
    · rename_i e' hr
      split at h
      · exact (Option.some.inj h) ▸ List.mem_cons_self _ _
      · exact List.mem_cons_of_mem _ ((Option.some.inj h) ▸ ih e' hr)

theorem attemptsMax_ge (m : List (Int × JsonFields)) (e : Int × JsonFields)
    (h : attemptsMax m = some e) : ∀ p ∈ m, p.1 ≤ e.1 := by
  induction m generalizing e with
  | nil => simp
  | cons e0 rest ih =>
    intro p hp
    simp only [attemptsMax] at h
    split at h
    · rename_i hr
      rw [attemptsMax_eq_none_iff] at hr
      subst hr
      rcases List.mem_cons.mp hp with rfl | hp0
      · exact (Option.some.inj h) ▸ le_refl _
      · simp at hp0
    · rename_i e' hr
      split at h
      · rename_i hle
        rcases List.mem_cons.mp hp with rfl | hp0
        · exact (Option.some.inj h) ▸ le_refl _
        · exact (Option.some.inj h) ▸ le_trans (ih e' hr p hp0) hle
      · rename_i hle
        rcases List.mem_cons.mp hp with rfl | hp0
        · exact (Option.some.inj h) ▸ le_of_lt (not_le.mp hle)
        · exact (Option.some.inj h) ▸ ih e' hr p hp0

theorem mem_updateA {α β : Type} [DecidableEq α] (xs : List (α × β)) (k : α) (v : β)
    (p : α × β) (h : p ∈ updateA xs k v) : p = (k, v) ∨ p ∈ xs := by
  induction xs with
  | nil => simp [updateA] at h; exact Or.inl h
  | cons e0 rest ih =>
    obtain ⟨a, w⟩ := e0
    by_cases ha : a = k
    · subst ha
      simp only [updateA, if_pos rfl] at h
      rcases List.mem_cons.mp h with rfl | h0
      · exact Or.inl rfl
      · exact Or.inr (List.mem_cons_of_mem _ h0)
    · simp only [updateA, if_neg ha] at h
      rcases List.mem_cons.mp h with rfl | h0
      · exact Or.inr (List.mem_cons_self _ _)
      · rcases ih h0 with h1 | h1
        · exact Or.inl h1
        · exact Or.inr (List.mem_cons_of_mem _ h1)

theorem updateA_self_mem {α β : Type} [DecidableEq α] (xs : List (α × β)) (k : α) (v : β) :
    (k, v) ∈ updateA xs k v := by
  induction xs with
  | nil => simp [updateA]
  | cons e0 rest ih =>
    obtain ⟨a, w⟩ := e0
    by_cases ha : a = k
    · subst ha
      simp [updateA]
    · simp only [updateA, if_neg ha]
      exact List.mem_cons_of_mem _ ih

theorem mem_keys_updateA {α β : Type} [DecidableEq α] (xs : List (α × β)) (k : α) (v : β)
    (k0 : α) (h : k0 ∈ xs.map Prod.fst) : k0 ∈ (updateA xs k v).map Prod.fst := by
  by_cases hk : k ∈ xs.map Prod.fst
  · rw [map_fst_updateA_of_mem xs k v hk]
    exact h
  · rw [map_fst_updateA_of_not_mem xs k v hk]
    exact List.mem_append_left _ h

theorem updateA_ne_nil {α β : Type} [DecidableEq α] (xs : List (α × β)) (k : α) (v : β) :
    updateA xs k v ≠ [] := by
  cases xs with
  | nil => simp [updateA]
  | cons e0 rest =>
    obtain ⟨a, w⟩ := e0
    by_cases ha : a = k <;> simp [updateA, ha]

theorem groupAttempts_mem (grp : List JsonFields) :
    ∀ p ∈ groupAttempts grp, p.2 ∈ grp ∧ p.1 = rec_attemptD p.2 := by
  induction grp using List.reverseRecOn with
  | nil => simp [groupAttempts]
  | append_singleton grp fs ih =>
    intro p hp
    rw [groupAttempts_concat] at hp
    rcases mem_updateA _ _ _ _ hp with rfl | hp0
    · exact ⟨List.mem_append_right _ (List.mem_singleton_self fs), rfl⟩
    · obtain ⟨h1, h2⟩ := ih p hp0
      exact ⟨List.mem_append_left _ h1, h2⟩

theorem groupAttempts_covers (grp : List JsonFields) :
    ∀ fs ∈ grp, rec_attemptD fs ∈ (groupAttempts grp).map Prod.fst := by
  induction grp using List.reverseRecOn with
  | nil => simp
  | append_singleton grp fs0 ih =>
    intro fs hfs
    rw [groupAttempts_concat]
    rcases List.mem_append.mp hfs with h1 | h1
    · exact mem_keys_updateA _ _ _ _ (ih fs h1)
    · rw [List.mem_singleton] at h1
      subst h1
      exact List.mem_map.mpr ⟨(rec_attemptD fs, fs), updateA_self_mem _ _ _, rfl⟩

theorem groupAttempts_ne_nil (grp : List JsonFields) (h : grp ≠ []) :
    groupAttempts grp ≠ [] := by
  induction grp using List.reverseRecOn with
  | nil => exact absurd rfl h
  | append_singleton grp fs _ =>
    rw [groupAttempts_concat]
    exact updateA_ne_nil _ _ _

/-- The code's final outcome of a group (max attempt key, dict lookup)
is exactly the claim's max-attempt record of the group. -/
theorem attemptsMax_groupAttempts (grp : List JsonFields) :
    attemptsMax (groupAttempts grp) =
      (grp.foldl finalStep none).map (fun fs => (rec_attemptD fs, fs)) := by
  induction grp using List.reverseRecOn with
  | nil => rfl
  | append_singleton grp fs ih =>
    rw [groupAttempts_concat, attemptsMax_updateA, ih, List.foldl_append]
    cases hb : grp.foldl finalStep none with
    | none => rfl
    | some b =>
      simp only [Option.map_some, List.foldl_cons, List.foldl_nil, finalStep]
      by_cases h : rec_attemptD b ≤ rec_attemptD fs <;> simp [h]

theorem buildTasks_eq_pure (recs : List JsonFields)
    (h : ∀ fs ∈ recs, (rec_attempt fs).isSome) :
    buildTasks (recs.map Json.obj) = some (buildTasksP recs) := by
  suffices hgen : ∀ (acc : Tasks),
      List.foldlM ledgerStep acc (recs.map Json.obj) = some (recs.foldl ledgerStepP acc) by
    exact hgen []
  induction recs with
  | nil => intro acc; rfl
  | cons fs rest ih =>
    intro acc
    obtain ⟨a, ha⟩ := Option.isSome_iff_exists.mp (h fs (List.mem_cons_self _ _))
    simp only [List.map_cons, List.foldlM_cons, ledgerStep, ha]
    rw [Option.bind_eq_bind, Option.some_bind]
    have heq : ledgerStepP acc fs =
        updateA acc (rec_id fs)
          ⟨rec_tool fs,
            updateA ((lookupA acc (rec_id fs)).getD ⟨rec_tool fs, []⟩).attempts a fs⟩ := by
      unfold ledgerStepP rec_attemptD
      rw [ha]
      rfl
    rw [List.foldl_cons, ← heq]
    exact ih (fun fs0 h0 => h fs0 (List.mem_cons_of_mem _ h0)) (ledgerStepP acc fs)

theorem buildTasks_some_attempts (recs : List JsonFields) (tasks : Tasks)
    (hs : buildTasks (recs.map Json.obj) = some tasks) :
    ∀ fs ∈ recs, (rec_attempt fs).isSome := by
  suffices hgen : ∀ (acc : Tasks) (res : Tasks),
      List.foldlM ledgerStep acc (recs.map Json.obj) = some res →
      ∀ fs ∈ recs, (rec_attempt fs).isSome by
    exact hgen [] tasks hs
  clear hs
  induction recs with
  | nil => intro acc res _ fs hfs; simp at hfs
  | cons fs0 rest ih =>
    intro acc res hres fs hfs
    simp only [List.map_cons, List.foldlM_cons, ledgerStep] at hres
    cases ha : rec_attempt fs0 with
    | none =>
      rw [ha] at hres
      simp at hres
    | some a =>
      rw [ha] at hres
      rw [Option.bind_eq_bind, Option.some_bind] at hres
      rcases List.mem_cons.mp hfs with rfl | hfs0
      · simp [ha]
      · exact ih _ res hres fs hfs0

/-- The `ok` verdict the loop derives for one group. -/
def okOf (r : TaskAgg) : Bool :=
  match attemptsMax r.attempts with
  | some fin => pyTruthy (getFieldD fin.2 "ok" Json.null)
  | none => false

/-- The duration (in seconds) the loop collects for one group, when its
final record has a numeric `duration_ms`. -/
def durOf (r : TaskAgg) : Option ℚ :=
  match attemptsMax r.attempts with
  | some fin => (toRealQ (getFieldD fin.2 "duration_ms" Json.null)).map (fun q => q / 1000)
  | none => none

theorem summStep_total (s : Summary) (p : String × TaskAgg) :
    (summStep s p).total = s.total := by
  unfold summStep
  cases attemptsMax p.2.attempts <;> rfl

theorem summStep_success (s : Summary) (p : String × TaskAgg) :
    (summStep s p).success = s.success + (if okOf p.2 then 1 else 0) := by
  unfold summStep okOf
  cases hm : attemptsMax p.2.attempts with
  | none => simp
  | some fin => rfl

theorem summStep_durations (s : Summary) (p : String × TaskAgg) :
    (summStep s p).durations = s.durations ++ (durOf p.2).toList := by
  unfold summStep durOf
  cases hm : attemptsMax p.2.attempts with
  | none => simp
  | some fin =>
    cases hq : toRealQ (getFieldD fin.2 "duration_ms" Json.null) with
    | none => simp [hq]
    | some q => simp [hq]

theorem summarize_go (ts : Tasks) : ∀ (acc : Summary),
    (ts.foldl summStep acc).total = acc.total ∧
    (ts.foldl summStep acc).success = acc.success + ts.countP (fun p => okOf p.2) ∧
    (ts.foldl summStep acc).durations = acc.durations ++ ts.filterMap (fun p => durOf p.2) := by
  induction ts with
  | nil => intro acc; simp
  | cons p rest ih =>
    intro acc
    refine ⟨?_, ?_, ?_⟩
    · rw [List.foldl_cons, (ih (summStep acc p)).1, summStep_total]
    · rw [List.foldl_cons, (ih (summStep acc p)).2.1, summStep_success, List.countP_cons]
      by_cases hok : okOf p.2 <;> simp [hok] <;> omega
    · rw [List.foldl_cons, (ih (summStep acc p)).2.2, summStep_durations, List.filterMap_cons]
      cases durOf p.2 <;> simp

theorem summarize_char (tasks : Tasks) :
    (summarize tasks).total = tasks.length ∧
    (summarize tasks).success = tasks.countP (fun p => okOf p.2) ∧
    (summarize tasks).durations = tasks.filterMap (fun p => durOf p.2) := by
  obtain ⟨ht, hs, hd⟩ := summarize_go tasks ⟨tasks.length, 0, [], []⟩
  exact ⟨ht, by simpa using hs, by simpa using hd⟩

theorem okOf_group (recs : List JsonFields) (tid : String) :
    okOf ⟨groupTool (spec_group recs tid), groupAttempts (spec_group recs tid)⟩ =
      (match final_outcome recs tid with
        | some fin => pyTruthy (getFieldD fin "ok" Json.null)
        | none => false) := by
  unfold okOf final_outcome
  rw [show (⟨groupTool (spec_group recs tid), groupAttempts (spec_group recs tid)⟩ :
    TaskAgg).attempts = groupAttempts (spec_group recs tid) from rfl]
  rw [attemptsMax_groupAttempts]
  cases (spec_group recs tid).foldl finalStep none <;> rfl

theorem durOf_group (recs : List JsonFields) (tid : String) :
    durOf ⟨groupTool (spec_group recs tid), groupAttempts (spec_group recs tid)⟩ =
      (match final_outcome recs tid with
        | some fin => (toRealQ (getFieldD fin "duration_ms" Json.null)).map (fun q => q / 1000)
        | none => none) := by
  unfold durOf final_outcome
  rw [show (⟨groupTool (spec_group recs tid), groupAttempts (spec_group recs tid)⟩ :
    TaskAgg).attempts = groupAttempts (spec_group recs tid) from rfl]
  rw [attemptsMax_groupAttempts]
  cases (spec_group recs tid).foldl finalStep none <;> rfl

theorem length_le_one_of_nodup_const {α : Type} (l : List α) (c : α) (hnd : l.Nodup)
    (h : ∀ x ∈ l, x = c) : l.length ≤ 1 := by
  match l with
  | [] => simp
  | [x] => simp
  | x :: y :: rest =>
    exfalso
    have hx := h x (List.mem_cons_self _ _)
    have hy := h y (List.mem_cons_of_mem _ (List.mem_cons_self _ _))
    have hne : x ≠ y := by
      have := List.nodup_cons.mp hnd
      exact fun he => this.1 (he ▸ List.mem_cons_self _ _)
    exact hne (hx.trans hy.symm)

/-- C2: the metrics aggregation is the claim's algorithm.  For every
parsed ledger whose records are dicts (and whose attempts convert to
int, otherwise the whole refresh raises): `total` is the number of
distinct ids; `success` counts the distinct ids whose max-attempt final
outcome has truthy `ok`; the duration list is `duration_ms / 1000` of
the final outcomes that carry a numeric `duration_ms` (others excluded);
`success_rate` is `success / total * 100` with `0` when `total = 0`, and
`avg_duration` is the mean of the duration list with `0` when empty. -/
theorem metrics_refinement (recs : List JsonFields) (tasks : Tasks)
    (hs : buildTasks (recs.map Json.obj) = some tasks) :
    (summarize tasks).total = (distinct_ids recs).length ∧
    (summarize tasks).success = ((distinct_ids recs).filter (fun tid =>
      match final_outcome recs tid with
      | some fin => pyTruthy (getFieldD fin "ok" Json.null)
      | none => false)).length ∧
    (summarize tasks).durations = (distinct_ids recs).filterMap (fun tid =>
      match final_outcome recs tid with
      | some fin => (toRealQ (getFieldD fin "duration_ms" Json.null)).map (fun q => q / 1000)
      | none => none) ∧
    success_rate (summarize tasks) =
      (if (summarize tasks).total = 0 then 0
        else ((summarize tasks).success : ℚ) / ((summarize tasks).total : ℚ) * 100) ∧
    avg_duration (summarize tasks) =
      (if (summarize tasks).durations = [] then 0
        else (summarize tasks).durations.sum / ((summarize tasks).durations.length : ℚ)) := by
  have hall := buildTasks_some_attempts recs tasks hs
  have hpure : tasks = buildTasksP recs := by
    have h2 := buildTasks_eq_pure recs hall
    rw [hs] at h2
    exact Option.some.inj h2
  subst hpure
  obtain ⟨ht, hsx, hd⟩ := summarize_char (buildTasksP recs)
  refine ⟨?_, ?_, ?_, ?_, ?_⟩
  · rw [ht, buildTasksP_eq_map, List.length_map]
  · rw [hsx, buildTasksP_eq_map, List.countP_map, List.countP_eq_length_filter]
    congr 1
    congr 1
    funext tid
    exact okOf_group recs tid
  · rw [hd, buildTasksP_eq_map, List.filterMap_map]
    congr 1
    funext tid
    exact durOf_group recs tid
  · unfold success_rate
    by_cases h0 : (summarize (buildTasksP recs)).total = 0
    · simp [h0]
    · simp [h0]
  · unfold avg_duration
    by_cases h0 : (summarize (buildTasksP recs)).durations = []
    · simp [h0]
    · simp [h0]

/-- The spec's worked example: two attempts of one task, the first
failed, the second ok after 2000 ms. -/
def exLedger1 : JsonFields :=
  [("id", Json.str "1"), ("attempt", Json.int 0), ("ok", Json.bool false)]

def exLedger2 : JsonFields :=
  [("id", Json.str "1"), ("attempt", Json.int 1), ("ok", Json.bool true),
    ("duration_ms", Json.int 2000)]

/-- C2 witness: the two-record example yields total = 1,
success_rate = 100 %, avg_duration = 2.0 s. -/
theorem metrics_refinement_witness :
    ∃ tasks,
      buildTasks ([exLedger1, exLedger2].map Json.obj) = some tasks ∧
      (summarize tasks).total = 1 ∧
      success_rate (summarize tasks) = 100 ∧
      avg_duration (summarize tasks) = 2 ∧
      (summarize tasks).total = (distinct_ids [exLedger1, exLedger2]).length := by
  refine ⟨[("1", ⟨"unknown", [((0 : Int), exLedger1), ((1 : Int), exLedger2)]⟩)],
    rfl, rfl, ?_, ?_, ?_⟩
  · have h1 : (summarize [("1", (⟨"unknown",
        [((0 : Int), exLedger1), ((1 : Int), exLedger2)]⟩ : TaskAgg))]).success = 1 := rfl
    have h2 : (summarize [("1", (⟨"unknown",
        [((0 : Int), exLedger1), ((1 : Int), exLedger2)]⟩ : TaskAgg))]).total = 1 := rfl
    unfold success_rate
    rw [h1, h2]
    norm_num
  · have h3 : (summarize [("1", (⟨"unknown",
        [((0 : Int), exLedger1), ((1 : Int), exLedger2)]⟩ : TaskAgg))]).durations =
        [((2000 : Int) : ℚ) / 1000] := rfl
    unfold avg_duration
    rw [h3]
    norm_num
  · exact (metrics_refinement [exLedger1, exLedger2]
      [("1", ⟨"unknown", [((0 : Int), exLedger1), ((1 : Int), exLedger2)]⟩)] rfl).1

/-- C10: every parsed ledger record without an `id` field is grouped
under the single id "unknown": any number of such records contribute at
most one entry to the task count, the entry is keyed "unknown", and its
final outcome is a max-attempt record among all of them. -/
theorem unknown_id_grouping (recs : List JsonFields) (tasks : Tasks)
    (hid : ∀ fs ∈ recs, lookupA fs "id" = none)
    (hs : buildTasks (recs.map Json.obj) = some tasks) :
    tasks.length ≤ 1 ∧
    (∀ p ∈ tasks, p.1 = "unknown") ∧
    (∀ p ∈ tasks, ∃ e, attemptsMax p.2.attempts = some e ∧ e.2 ∈ recs ∧
      e.1 = rec_attemptD e.2 ∧ ∀ fs ∈ recs, rec_attemptD fs ≤ e.1) := by
  have hall := buildTasks_some_attempts recs tasks hs
  have hpure : tasks = buildTasksP recs := by
    have h2 := buildTasks_eq_pure recs hall
    rw [hs] at h2
    exact Option.some.inj h2
  subst hpure
  have huid : ∀ fs ∈ recs, rec_id fs = "unknown" := by
    intro fs hfs
    unfold rec_id getFieldD
    rw [hid fs hfs]
    rfl
  rw [buildTasksP_eq_map]
  have hidelem : ∀ x ∈ distinct_ids recs, x = "unknown" := by
    intro x hx
    unfold distinct_ids at hx
    rw [mem_firstDedup] at hx
    obtain ⟨fs, hfs, rfl⟩ := List.mem_map.mp hx
    exact huid fs hfs
  refine ⟨?_, ?_, ?_⟩
  · rw [List.length_map]
    exact length_le_one_of_nodup_const _ "unknown" (firstDedup_nodup _) hidelem
  · intro p hp
    obtain ⟨tid, htid, rfl⟩ := List.mem_map.mp hp
    exact hidelem tid htid
  · intro p hp
    obtain ⟨tid, htid, rfl⟩ := List.mem_map.mp hp
    have htu : tid = "unknown" := hidelem tid htid
    subst htu
    have hgrp : spec_group recs "unknown" = recs := by
      unfold spec_group
      rw [List.filter_eq_self]
      intro fs hfs
      rw [huid fs hfs]
      rfl
    dsimp only
    rw [hgrp]
    have hne : recs ≠ [] := by
      intro h0
      subst h0
      simp [distinct_ids, firstDedup] at htid
    have hmne : groupAttempts recs ≠ [] := groupAttempts_ne_nil recs hne
    cases he : attemptsMax (groupAttempts recs) with
    | none =>
      rw [attemptsMax_eq_none_iff] at he
      exact absurd he hmne
    | some e =>
      obtain ⟨h1, h2⟩ := groupAttempts_mem recs e (attemptsMax_mem _ _ he)
      refine ⟨e, rfl, h1, h2, ?_⟩
      intro fs hfs
      obtain ⟨pe, hpe, hpk⟩ := List.mem_map.mp (groupAttempts_covers recs fs hfs)
      exact hpk ▸ attemptsMax_ge _ _ he pe hpe

/-- C10 witness: three id-less records (attempts 0, 2 and missing) form
exactly one "unknown" task whose final outcome is the attempt-2 record. -/
theorem unknown_id_witness :
    ∃ tasks,
      buildTasks ([[("attempt", Json.int 0), ("ok", Json.bool false)],
        [("attempt", Json.int 2), ("ok", Json.bool true)],
        [("ok", Json.bool true)]].map Json.obj) = some tasks ∧
      tasks.length ≤ 1 ∧
      (∀ p ∈ tasks, p.1 = "unknown") ∧
      (∀ p ∈ tasks, ∃ e, attemptsMax p.2.attempts = some e ∧
        e.2 ∈ [[("attempt", Json.int 0), ("ok", Json.bool false)],
          [("attempt", Json.int 2), ("ok", Json.bool true)],
          [("ok", Json.bool true)]] ∧
        e.1 = rec_attemptD e.2 ∧
        ∀ fs ∈ [[("attempt", Json.int 0), ("ok", Json.bool false)],
          [("attempt", Json.int 2), ("ok", Json.bool true)],
          [("ok", Json.bool true)]], rec_attemptD fs ≤ e.1) := by
  obtain ⟨hl, hu, hf⟩ := unknown_id_grouping
    [[("attempt", Json.int 0), ("ok", Json.bool false)],
      [("attempt", Json.int 2), ("ok", Json.bool true)],
      [("ok", Json.bool true)]]
    [("unknown", ⟨"unknown",
      [((0 : Int), [("ok", Json.bool true)]),
       ((2 : Int), [("attempt", Json.int 2), ("ok", Json.bool true)])]⟩)]
    (by
      intro fs hfs
      rcases List.mem_cons.mp hfs with rfl | hfs
      · rfl
      · rcases List.mem_cons.mp hfs with rfl | hfs
        · rfl
        · rcases List.mem_cons.mp hfs with rfl | hfs
          · rfl
          · simp at hfs)
    rfl
  exact ⟨_, rfl, hl, hu, hf⟩
